import Mathlib

/-!
# Verification of the CPM scheduling engine (src/cpm.py, src/vallourec_po.py)

This file gives a shallow embedding of the Critical Path Method analyzer of
this repository and settles the specification's claims against it.

The two Python source files are near-identical; both define `getTaskIndex`,
`forwardPass`, `backwardPass`, `slack`, `critical_path_string` and
`computeCPM` over a pandas DataFrame with columns `COD` (string task code),
`PRE` (possibly-missing comma-separated predecessor codes) and `DUR`
(integer duration).

Embedding conventions:
* A row is a `CTask` (`cod`, `pre : Option String` where `none` models a
  missing/NaN `PRE` cell, `dur : Int`).  A table is a `List CTask`,
  indexed by position (pandas' default RangeIndex).
* All time arithmetic is over unbounded `Int` (the numpy arrays are
  `int32`; the spec's data model promises widths sufficient to avoid
  wraparound, and no claim exercises wraparound).
* `errorCodeMsg` prints an error naming the offending code and calls
  `quit()`; we model that terminal outcome as `Except.error (.codeNotFound c)`.
  Indexing a numpy array with `None` (reachable only through an empty
  task code stored in the successor lists) crashes the process; it is
  modelled as `Except.error .invalidIndex`.
* The unbounded `while changed:` loops are modelled by a fuel-indexed
  runner that returns `none` when the given number of passes did not
  reach the fixed point; the loop of the Python program corresponds to
  the limit over all fuels.
-/

namespace CPM

/-- Terminal outcomes of the Python process inside the engine:
`codeNotFound c` models `errorCodeMsg(c)` (prints
`"Error in input file : CODE - Code '<c>' not found"` and calls `quit()`);
`invalidIndex` models the crash of indexing a numpy array with `None`. -/
inductive QuitError where
  | codeNotFound (code : String)
  | invalidIndex
deriving DecidableEq, Repr

/-- One row of the task table: `COD`, `PRE` (missing cell modelled as
`none`), `DUR`. -/
structure CTask where
  cod : String
  pre : Option String
  dur : Int
deriving DecidableEq, Repr

instance : Inhabited CTask := ⟨⟨"", none, 0⟩⟩

deriving instance DecidableEq for Except

abbrev Table := List CTask

/-- Strip of leading and trailing whitespace (Python `str.strip()`). -/
def trimChars (cs : List Char) : List Char :=
  ((cs.dropWhile Char.isWhitespace).reverse.dropWhile Char.isWhitespace).reverse

/-- Python `str.strip()`. -/
def pyStrip (s : String) : String :=
  (trimChars s.data).asString

/-- Python `str.split(',')`: split at every comma, keeping empty pieces. -/
def splitComma : List Char → List Char → List (List Char)
  | [], acc => [acc.reverse]
  | c :: cs, acc =>
    if c = ',' then acc.reverse :: splitComma cs []
    else splitComma cs (c :: acc)

/-- `[p.strip() for p in predecessors.split(',') if p.strip()]`. -/
def splitPreds (s : String) : List String :=
  (((splitComma s.data []).map (fun p => (trimChars p).asString)).filter
    (fun p => p ≠ ""))

/-- `getTaskIndex(mydata, code)`: `None` for a missing/empty code, the
first index whose `COD` equals `code.strip()`, and the print-and-quit
outcome `errorCodeMsg(code)` when no row matches. -/
def getTaskIndex (tbl : Table) (code : String) : Except QuitError (Option Nat) :=
  if code = "" then .ok none
  else
    match tbl.findIdx? (fun t => t.cod = pyStrip code) with
    | some i => .ok (some i)
    | none => .error (.codeNotFound code)

/-- The forward-pass state: the `ES` and `EF` arrays, as total maps from
row index to value (entries at and beyond the table length stay `0`). -/
structure FState where
  es : Nat → Int
  ef : Nat → Int

/-- The `max_ef` accumulation of the forward pass:
`max_ef = float('-inf')`, then `max_ef = max(max_ef, EF[pred_idx])` for
every resolved predecessor; `none` models `-inf`. -/
def maxEFfold (tbl : Table) (ef : Nat → Int) :
    List String → Option Int → Except QuitError (Option Int)
  | [], acc => .ok acc
  | c :: cs, acc => do
    match ← getTaskIndex tbl c with
    | none => maxEFfold tbl ef cs acc
    | some j =>
      maxEFfold tbl ef cs (some (match acc with
        | none => ef j
        | some m => max m (ef j)))

/-- `ES[i] = max_ef if max_ef != float('-inf') else 0`. -/
def esOf : Option Int → Int
  | none => 0
  | some m => m

/-- The new `(ES[i], EF[i])` pair computed by the forward-pass body: the
branch on a missing/empty `PRE` assigns `(0, DUR)`; otherwise the
predecessor fold yields `max_ef`, and the assignments are
`ES[i] = max_ef if max_ef != -inf else 0`, `EF[i] = ES[i] + DUR`. -/
def fwdCompute (tbl : Table) (ef : Nat → Int) (t : CTask) :
    Except QuitError (Int × Int) :=
  match t.pre with
  | none => .ok ((0 : Int), t.dur)
  | some p =>
    if p = "" then .ok ((0 : Int), t.dur)
    else
      (maxEFfold tbl ef (splitPreds p) none).map (fun mx =>
        (esOf mx, esOf mx + t.dur))

/-- The body of the forward pass for row `i`: compute the new pair, store
it, and accumulate the `ES[i] != old_es` check into the `changed` flag. -/
def fwdStep (tbl : Table) (acc : FState × Bool) (i : Nat) :
    Except QuitError (FState × Bool) :=
  (fwdCompute tbl acc.1.ef (tbl.getD i default)).map (fun nv =>
    (⟨fun k => if k = i then nv.1 else acc.1.es k,
      fun k => if k = i then nv.2 else acc.1.ef k⟩,
     acc.2 || decide (nv.1 ≠ acc.1.es i)))

/-- One full forward pass `for i in range(ntask): ...`, returning the new
state and the `changed` flag. -/
def fwdPass (tbl : Table) (s : FState) : Except QuitError (FState × Bool) :=
  (List.range tbl.length).foldlM (fwdStep tbl) (s, false)

/-- The `while changed:` loop of `forwardPass`, with fuel bounding the
number of passes.  Returns the fixed-point state together with the number
of executed passes, or `none` when `fuel` passes did not converge. -/
def runFwd (tbl : Table) : Nat → FState → Except QuitError (Option (FState × Nat))
  | 0, _ => .ok none
  | fuel + 1, s => do
    let (s', ch) ← fwdPass tbl s
    if ch then
      match ← runFwd tbl fuel s' with
      | none => pure none
      | some (t, p) => pure (some (t, p + 1))
    else
      pure (some (s', 1))

/-- `ES = np.zeros(ntask)`, `EF = np.zeros(ntask)`. -/
def fwdInit : FState := ⟨fun _ => 0, fun _ => 0⟩

/-- `forwardPass(mydata)` under `fuel` passes. -/
def forwardPass (tbl : Table) (fuel : Nat) : Except QuitError (Option (FState × Nat)) :=
  runFwd tbl fuel fwdInit

/-- The backward-pass state: the `LS` and `LF` arrays. -/
structure BState where
  ls : Nat → Int
  lf : Nat → Int

/-- The successor-list construction of `backwardPass`: for every row `i`
with predecessors, `SUC[pred_idx].append(mydata['COD'][i])`. -/
def sucBuild (tbl : Table) : Except QuitError (Nat → List String) :=
  (List.range tbl.length).foldlM
    (fun suc i => do
      let t := tbl.getD i default
      match t.pre with
      | none => pure suc
      | some p =>
        if p = "" then pure suc
        else
          (splitPreds p).foldlM
            (fun suc c => do
              match ← getTaskIndex tbl c with
              | none => pure suc
              | some j => pure (fun k => if k = j then suc k ++ [t.cod] else suc k))
            suc)
    (fun _ => ([] : List String))

/-- One step of the terminal-task initialization:
`if len(SUC[i]) == 0: LF[i] = EF[i]; LS[i] = LF[i] - DUR[i]`. -/
def bwdInitStep (tbl : Table) (suc : Nat → List String) (ef : Nat → Int)
    (s : BState) (i : Nat) : BState :=
  if suc i = [] then
    { ls := fun k => if k = i then ef i - (tbl.getD i default).dur else s.ls k
      lf := fun k => if k = i then ef i else s.lf k }
  else s

/-- Initialization of the terminal tasks, over all rows. -/
def bwdInit (tbl : Table) (suc : Nat → List String) (ef : Nat → Int) : BState :=
  (List.range tbl.length).foldl (bwdInitStep tbl suc ef) ⟨fun _ => 0, fun _ => 0⟩

/-- The `min_ls` accumulation of the backward pass:
`min_ls = inf`, then for every successor code whose resolved row has
`LF != 0`, `min_ls = min(min_ls, LS[succ_idx])`; `none` models `inf`.
A successor code that resolves to `None` (an empty stored `COD`) makes the
Python program index a numpy array with `None` and crash. -/
def minLSfold (tbl : Table) (s : BState) :
    List String → Option Int → Except QuitError (Option Int)
  | [], acc => .ok acc
  | c :: cs, acc => do
    match ← getTaskIndex tbl c with
    | none => .error .invalidIndex
    | some j =>
      if s.lf j ≠ 0 then
        minLSfold tbl s cs (some (match acc with
          | none => s.ls j
          | some m => min m (s.ls j)))
      else minLSfold tbl s cs acc

/-- Consumption of `min_ls`: when finite (`some`), `new_lf = min_ls`,
`new_ls = new_lf - DUR[i]`, and when different from the stored values,
assign both and set `changed`. -/
def bwdApply (tbl : Table) (i : Nat) (acc : BState × Bool) :
    Option Int → BState × Bool
  | none => acc
  | some m =>
    let nlf := m
    let nls := m - (tbl.getD i default).dur
    if nlf ≠ acc.1.lf i ∨ nls ≠ acc.1.ls i then
      (⟨fun k => if k = i then nls else acc.1.ls k,
        fun k => if k = i then nlf else acc.1.lf k⟩, true)
    else acc

/-- The body of the backward pass for row `i`: skip rows without
successors, otherwise compute `min_ls` and apply it. -/
def bwdStep (tbl : Table) (suc : Nat → List String) (acc : BState × Bool) (i : Nat) :
    Except QuitError (BState × Bool) :=
  if suc i = [] then .ok acc
  else
    (minLSfold tbl acc.1 (suc i) none).map (bwdApply tbl i acc)

/-- One full backward pass `for i in range(ntask - 1, -1, -1): ...`. -/
def bwdPass (tbl : Table) (suc : Nat → List String) (s : BState) :
    Except QuitError (BState × Bool) :=
  (List.range tbl.length).reverse.foldlM (bwdStep tbl suc) (s, false)

/-- The `while changed:` loop of `backwardPass`, fuel-bounded, returning
the fixed point and the number of executed passes. -/
def runBwd (tbl : Table) (suc : Nat → List String) :
    Nat → BState → Except QuitError (Option (BState × Nat))
  | 0, _ => .ok none
  | fuel + 1, s => do
    let (s', ch) ← bwdPass tbl suc s
    if ch then
      match ← runBwd tbl suc fuel s' with
      | none => pure none
      | some (t, p) => pure (some (t, p + 1))
    else
      pure (some (s', 1))

/-- `backwardPass(mydata)` on the forward results, under `fuel` passes. -/
def backwardPass (tbl : Table) (ef : Nat → Int) (fuel : Nat) :
    Except QuitError (Option (BState × Nat)) := do
  let suc ← sucBuild tbl
  runBwd tbl suc fuel (bwdInit tbl suc ef)

/-- The annotated result table produced by `computeCPM`, with the arrays
extracted as lists over the row range. -/
structure CPMResult where
  cods : List String
  durs : List Int
  es : List Int
  ef : List Int
  ls : List Int
  lf : List Int
  slack : List Int
deriving DecidableEq, Repr

/-- `computeCPM(mydata)`: forward pass, backward pass, then
`SLACK = LS - ES`.  `none` when either loop exceeds its fuel. -/
def computeCPM (tbl : Table) (fuel : Nat) : Except QuitError (Option CPMResult) := do
  match ← forwardPass tbl fuel with
  | none => pure none
  | some (fs, _) =>
    match ← backwardPass tbl fs.ef fuel with
    | none => pure none
    | some (bs, _) =>
      let n := tbl.length
      pure (some
        { cods := tbl.map (fun t => t.cod)
          durs := tbl.map (fun t => t.dur)
          es := (List.range n).map fs.es
          ef := (List.range n).map fs.ef
          ls := (List.range n).map bs.ls
          lf := (List.range n).map bs.lf
          slack := (List.range n).map (fun i => bs.ls i - fs.es i) })

/-!
## The sort behind `sort_values(by='ES')`

`critical_path_string` sorts the filtered frame with pandas
`DataFrame.sort_values(by='ES')`, whose default `kind='quicksort'` is
numpy's indirect introsort `aquicksort` (npysort/quicksort.c.src):
a depth-limited quicksort with median-of-three pivoting that falls back
to an insertion sort for ranges of fewer than 17 elements
(`SMALL_QUICKSORT = 15`) and to `aheapsort` when the depth budget
`2 * npy_get_msb(num)` is exhausted.  The functions below transcribe it:
`ts` is the `tosort` index array, and position `p` holds key
`v[tosort[p]]`.  The C pointer loops become fuel-indexed recursions; the
fuel given by `npyAargsort` strictly exceeds the number of iterations the
C loops can perform.
-/

/-- Key at position `p` of the `tosort` array: `v[tosort[p]]`. -/
def keyAt (v : List Int) (ts : List Nat) (p : Nat) : Int :=
  v.getD (ts.getD p 0) 0

/-- `INTP_SWAP` of two positions of `tosort`. -/
def swapT (ts : List Nat) (a b : Nat) : List Nat :=
  (ts.set a (ts.getD b 0)).set b (ts.getD a 0)

/-- The inner shift loop of the indirect insertion sort:
`while (pj > pl && LT(vp, v[*pk])) *pj-- = *pk--;` followed by
`*pj = vi`, entered with `pj = pi`; the recursion is on `pj`. -/
def insInner (v : List Int) (vi : Nat) (pl : Nat) : Nat → List Nat → List Nat
  | 0, ts => ts.set 0 vi
  | pj + 1, ts =>
    if pl < pj + 1 ∧ v.getD vi 0 < v.getD (ts.getD pj 0) 0 then
      insInner v vi pl pj (ts.set (pj + 1) (ts.getD pj 0))
    else ts.set (pj + 1) vi

/-- The indirect insertion sort over positions `pl..pr` inclusive:
`for (pi = pl + 1; pi <= pr; ++pi) ...`. -/
def insSort (v : List Int) (pl pr : Nat) (ts : List Nat) : List Nat :=
  (List.range' (pl + 1) (pr - pl)).foldl
    (fun ts pi => insInner v (ts.getD pi 0) pl pi ts) ts

/-- `do ++pi; while (LT(v[*pi], vp));` — called with the already
incremented position. -/
def scanUp (v : List Int) (vp : Int) (ts : List Nat) : Nat → Nat → Nat
  | 0, pi => pi
  | f + 1, pi => if keyAt v ts pi < vp then scanUp v vp ts f (pi + 1) else pi

/-- `do --pj; while (LT(vp, v[*pj]));` — called with the already
decremented position. -/
def scanDown (v : List Int) (vp : Int) (ts : List Nat) : Nat → Nat → Nat
  | 0, pj => pj
  | f + 1, pj => if vp < keyAt v ts pj then scanDown v vp ts f (pj - 1) else pj

/-- The partition exchange loop `for (;;) { scans; if (pi >= pj) break;
INTP_SWAP(*pi, *pj); }`, returning the array and the final `pi`. -/
def partLoop (v : List Int) (vp : Int) : Nat → Nat → Nat → List Nat → List Nat × Nat
  | 0, pi, _, ts => (ts, pi)
  | f + 1, pi, pj, ts =>
    let pi' := scanUp v vp ts (f + 1) (pi + 1)
    let pj' := scanDown v vp ts (f + 1) (pj - 1)
    if pi' ≥ pj' then (ts, pi')
    else partLoop v vp f pi' pj' (swapT ts pi' pj')

/-- One sift of numpy's indirect heapsort (`aheapsort`), with the heap
1-based over segment positions `pl + h - 1` and `tmp` the index being
placed; recursion is on the doubling child position `j`. -/
def siftDown (v : List Int) (pl : Nat) (tmp : Nat) (n : Nat) :
    Nat → Nat → Nat → List Nat → List Nat
  | 0, i, _, ts => ts.set (pl + i - 1) tmp
  | f + 1, i, j, ts =>
    if j ≤ n then
      let j := if j < n ∧ keyAt v ts (pl + j - 1) < keyAt v ts (pl + j) then j + 1 else j
      if v.getD tmp 0 < keyAt v ts (pl + j - 1) then
        siftDown v pl tmp n f j (2 * j) (ts.set (pl + i - 1) (ts.getD (pl + j - 1) 0))
      else ts.set (pl + i - 1) tmp
    else ts.set (pl + i - 1) tmp

/-- Heap extraction phase of `aheapsort`, `for (; n > 1;)`. -/
def heapExtract (v : List Int) (pl : Nat) : Nat → List Nat → List Nat
  | 0, ts => ts
  | 1, ts => ts
  | n + 2, ts =>
    let m := n + 2
    let tmp := ts.getD (pl + m - 1) 0
    let ts := ts.set (pl + m - 1) (ts.getD pl 0)
    let ts := siftDown v pl tmp (m - 1) (m + 2) 1 2 ts
    heapExtract v pl (n + 1) ts

/-- numpy `aheapsort` over segment positions `pl..pr` inclusive. -/
def aheapsort (v : List Int) (pl pr : Nat) (ts : List Nat) : List Nat :=
  let n := pr + 1 - pl
  let ts := (List.range (n / 2)).foldl
    (fun ts k =>
      let l := n / 2 - k
      siftDown v pl (ts.getD (pl + l - 1) 0) n (n + 2) l (2 * l) ts) ts
  heapExtract v pl n ts

/-- The partitioning `while ((pr - pl) > SMALL_QUICKSORT)` loop of
`aquicksort`: median-of-three pivot, exchange partition, push the larger
side (with the decremented depth `--cdepth`) and continue on the smaller. -/
def aqsPart (v : List Int) :
    Nat → Nat → Nat → Int → List (Nat × Nat × Int) → List Nat →
    List Nat × Nat × Nat × Int × List (Nat × Nat × Int)
  | 0, pl, pr, cdepth, stack, ts => (ts, pl, pr, cdepth, stack)
  | fuel + 1, pl, pr, cdepth, stack, ts =>
    if pr - pl > 15 then
      let pm := pl + ((pr - pl) >>> 1)
      let ts := if keyAt v ts pm < keyAt v ts pl then swapT ts pm pl else ts
      let ts := if keyAt v ts pr < keyAt v ts pm then swapT ts pr pm else ts
      let ts := if keyAt v ts pm < keyAt v ts pl then swapT ts pm pl else ts
      let vp := keyAt v ts pm
      let ts := swapT ts pm (pr - 1)
      let (ts, pi) := partLoop v vp (pr + 2) pl (pr - 1) ts
      let ts := swapT ts pi (pr - 1)
      if pi - pl < pr - pi then
        aqsPart v fuel pl (pi - 1) (cdepth - 1) ((pi + 1, pr, cdepth - 1) :: stack) ts
      else
        aqsPart v fuel (pi + 1) pr (cdepth - 1) ((pl, pi - 1, cdepth - 1) :: stack) ts
    else (ts, pl, pr, cdepth, stack)

/-- The outer `for (;;)` of `aquicksort`: heapsort fallback on exhausted
depth, otherwise partition down to a small range, insertion sort it, then
pop the segment stack. -/
def aqsOuter (v : List Int) :
    Nat → Nat → Nat → Int → List (Nat × Nat × Int) → List Nat → List Nat
  | 0, _, _, _, _, ts => ts
  | fuel + 1, pl, pr, cdepth, stack, ts =>
    if cdepth < 0 then
      let ts := aheapsort v pl pr ts
      match stack with
      | [] => ts
      | (pl', pr', cd') :: rest => aqsOuter v fuel pl' pr' cd' rest ts
    else
      let (ts, pl', pr', _cdepth', stack') := aqsPart v (fuel + 1) pl pr cdepth stack ts
      let ts := insSort v pl' pr' ts
      match stack' with
      | [] => ts
      | (pl'', pr'', cd'') :: rest => aqsOuter v fuel pl'' pr'' cd'' rest ts

/-- `npy_get_msb`: index of the most significant bit (fuel-indexed copy
of `Nat.log2`, which the kernel cannot reduce). -/
def msbAux : Nat → Nat → Nat
  | 0, _ => 0
  | f + 1, n => if n ≥ 2 then msbAux f (n / 2) + 1 else 0

def npyGetMsb (n : Nat) : Nat := msbAux n n

/-- `np.argsort(v, kind='quicksort')`: `tosort` starts as the identity
permutation; `cdepth = npy_get_msb(num) * 2`. -/
def npyAargsort (v : List Int) : List Nat :=
  let num := v.length
  aqsOuter v (2 * num + 2) 0 (num - 1) (2 * Int.ofNat (npyGetMsb num)) [] (List.range num)

/-- The row positions kept by `mydata[mydata['SLACK'] == 0]`, in input
order. -/
def zeroSlackIdxs (r : CPMResult) : List Nat :=
  (List.range r.cods.length).filter (fun i => r.slack.getD i 0 = 0)

/-- The row order produced by `sort_values(by='ES')` on the filtered
frame, as original row indices: pandas computes the argsort of the
filtered `ES` column and reorders the rows by it. -/
def criticalOrder (r : CPMResult) : List Nat :=
  let idxs := zeroSlackIdxs r
  let v := idxs.map (fun i => r.es.getD i 0)
  (npyAargsort v).map (fun k => idxs.getD k 0)

/-- `critical_path_string(mydata)`: codes of the zero-slack rows in the
sorted order, joined by `" -> "`. -/
def critical_path_string (r : CPMResult) : String :=
  " -> ".intercalate ((criticalOrder r).map (fun i => r.cods.getD i ""))

/-!
## Spec-side predicates

The following definitions follow the specification's words (not the
code); they are used to state that computed results do or do not satisfy
the properties the spec claims.
-/

/-- Spec-side resolution of a row's predecessor indices: each
comma-separated code resolved by exact-match lookup. -/
def specPredIdxs (tbl : Table) (t : CTask) : List Nat :=
  (match t.pre with
   | none => ([] : List String)
   | some p => splitPreds p).filterMap
    (fun c : String => tbl.findIdx? (fun u : CTask => u.cod = pyStrip c))

/-- Maximum of a list of values, `0` when empty. -/
def maxList : List Int → Int
  | [] => 0
  | x :: xs => xs.foldl max x

/-- Spec-side forward fixed-point equations (claim C1): a task with no
resolved predecessors has `ES = 0`, `EF = duration`; a task with resolved
predecessors has `ES = max (EF of predecessors)`, `EF = ES + duration`. -/
def specForwardEquations (tbl : Table) (es ef : List Int) : Prop :=
  ∀ i < tbl.length,
    (specPredIdxs tbl (tbl.getD i default) = [] →
      es.getD i 0 = 0 ∧ ef.getD i 0 = (tbl.getD i default).dur) ∧
    (specPredIdxs tbl (tbl.getD i default) ≠ [] →
      es.getD i 0 = maxList ((specPredIdxs tbl (tbl.getD i default)).map
        (fun j => ef.getD j 0)) ∧
      ef.getD i 0 = es.getD i 0 + (tbl.getD i default).dur)

instance (tbl : Table) (es ef : List Int) :
    Decidable (specForwardEquations tbl es ef) := by
  unfold specForwardEquations; infer_instance

/-- Spec-side duration invariant (claim C4): every task satisfies
`EF = ES + duration` and `LF = LS + duration`. -/
def specDurInvariant (r : CPMResult) : Prop :=
  ∀ i < r.cods.length,
    r.ef.getD i 0 = r.es.getD i 0 + r.durs.getD i 0 ∧
    r.lf.getD i 0 = r.ls.getD i 0 + r.durs.getD i 0

instance (r : CPMResult) : Decidable (specDurInvariant r) := by
  unfold specDurInvariant; infer_instance

/-- Spec-side slack invariant (claim C5): every task satisfies
`ES ≤ LS` and `slack ≥ 0`. -/
def specSlackInvariant (r : CPMResult) : Prop :=
  ∀ i < r.cods.length,
    r.es.getD i 0 ≤ r.ls.getD i 0 ∧ 0 ≤ r.slack.getD i 0

instance (r : CPMResult) : Decidable (specSlackInvariant r) := by
  unfold specSlackInvariant; infer_instance

/-- Extraction of a forward run into comparable lists:
`(ES row values, EF row values, passes executed)`. -/
def fwdExtract (tbl : Table) (sp : FState × Nat) : List Int × List Int × Nat :=
  ((List.range tbl.length).map sp.1.es, (List.range tbl.length).map sp.1.ef, sp.2)

/-!
## Concrete input tables used by the claims
-/

/-- A well-formed acyclic two-task table whose predecessor (`B`) is
listed after its dependent (`A`): `A` depends on `B`, both of duration 1. -/
def rev2 : Table := [⟨"A", some "B", 1⟩, ⟨"B", none, 1⟩]

/-- A well-formed acyclic three-task chain listed in reverse order:
`A` depends on `B`, `B` depends on `C`. -/
def rev3 : Table := [⟨"A", some "B", 1⟩, ⟨"B", some "C", 1⟩, ⟨"C", none, 1⟩]

/-- The diamond of claim C6. -/
def diamond : Table :=
  [⟨"A", none, 2⟩, ⟨"B", some "A", 3⟩, ⟨"C", some "A", 1⟩, ⟨"D", some "B,C", 2⟩]

/-- The cyclic two-task table of claim C7: each task lists the other as
its predecessor. -/
def cyc2 : Table := [⟨"A", some "B", 1⟩, ⟨"B", some "A", 1⟩]

/-- A table whose task `B` references the nonexistent predecessor `X`
(claim C9 / spec scenario D). -/
def badPred : Table := [⟨"A", none, 3⟩, ⟨"B", some "X", 2⟩]

/-- Seventeen independent tasks of duration 1: all have slack 0 and equal
`earliestStart = 0` (claim C3). -/
def seventeen : Table :=
  [⟨"T0", none, 1⟩, ⟨"T1", none, 1⟩, ⟨"T2", none, 1⟩, ⟨"T3", none, 1⟩,
   ⟨"T4", none, 1⟩, ⟨"T5", none, 1⟩, ⟨"T6", none, 1⟩, ⟨"T7", none, 1⟩,
   ⟨"T8", none, 1⟩, ⟨"T9", none, 1⟩, ⟨"T10", none, 1⟩, ⟨"T11", none, 1⟩,
   ⟨"T12", none, 1⟩, ⟨"T13", none, 1⟩, ⟨"T14", none, 1⟩, ⟨"T15", none, 1⟩,
   ⟨"T16", none, 1⟩]

/-- The annotated result `computeCPM` produces for `rev2`. -/
def rev2Result : CPMResult :=
  ⟨["A", "B"], [1, 1], [0, 0], [1, 1], [0, -1], [1, 0], [0, -1]⟩

/-- The annotated result `computeCPM` produces for `rev3`. -/
def rev3Result : CPMResult :=
  ⟨["A", "B", "C"], [1, 1, 1], [0, 0, 0], [1, 1, 1],
   [0, -1, 0], [1, 0, 0], [0, -1, 0]⟩

/-- The annotated result `computeCPM` produces for `diamond`. -/
def diamondResult : CPMResult :=
  ⟨["A", "B", "C", "D"], [2, 3, 1, 2], [0, 2, 2, 5], [2, 5, 3, 7],
   [0, 2, 4, 5], [2, 5, 5, 7], [0, 0, 2, 0]⟩

/-- The annotated result `computeCPM` produces for `seventeen`. -/
def seventeenResult : CPMResult :=
  ⟨["T0", "T1", "T2", "T3", "T4", "T5", "T6", "T7", "T8", "T9", "T10",
    "T11", "T12", "T13", "T14", "T15", "T16"],
   List.replicate 17 1, List.replicate 17 0, List.replicate 17 1,
   List.replicate 17 0, List.replicate 17 1, List.replicate 17 0⟩

/-- The annotated result `computeCPM` produces for the empty table. -/
def emptyResult : CPMResult := ⟨[], [], [], [], [], [], []⟩

/-- The comma-separated predecessor codes of a row, as scanned by the
forward pass and the successor construction (empty for a missing or empty
`PRE` cell). -/
def rowPreds (t : CTask) : List String :=
  match t.pre with
  | none => []
  | some p => if p = "" then [] else splitPreds p

/-- The pure part of `getTaskIndex`: index of the first row whose `COD`
equals the stripped code. -/
def resolveIdx (tbl : Table) (c : String) : Option Nat :=
  tbl.findIdx? (fun t => t.cod = pyStrip c)

/-!
### Pure (error-free) forward pass

On a table whose predecessor codes all resolve, the forward pass never
reaches `errorCodeMsg`; the following pure functions compute the same
states and flags (proved below), which lets the pass-iteration be studied
as a sequence of states.
-/

/-- Pure counterpart of `maxEFfold`. -/
def maxEFfoldP (tbl : Table) (ef : Nat → Int) : List String → Option Int → Option Int
  | [], acc => acc
  | c :: cs, acc =>
    if c = "" then maxEFfoldP tbl ef cs acc
    else
      match resolveIdx tbl c with
      | none => maxEFfoldP tbl ef cs acc
      | some j =>
        maxEFfoldP tbl ef cs (some (match acc with
          | none => ef j
          | some m => max m (ef j)))

/-- Pure counterpart of `fwdCompute`. -/
def fwdComputeP (tbl : Table) (ef : Nat → Int) (t : CTask) : Int × Int :=
  match t.pre with
  | none => ((0 : Int), t.dur)
  | some p =>
    if p = "" then ((0 : Int), t.dur)
    else
      let mx := maxEFfoldP tbl ef (splitPreds p) none
      (esOf mx, esOf mx + t.dur)

/-- Pure counterpart of `fwdStep`. -/
def fwdStepP (tbl : Table) (acc : FState × Bool) (i : Nat) : FState × Bool :=
  let nv := fwdComputeP tbl acc.1.ef (tbl.getD i default)
  (⟨fun k => if k = i then nv.1 else acc.1.es k,
    fun k => if k = i then nv.2 else acc.1.ef k⟩,
   acc.2 || decide (nv.1 ≠ acc.1.es i))

/-- The pure forward pass truncated to its first `k` rows. -/
def fwdPrefix (tbl : Table) (s : FState) (k : Nat) : FState × Bool :=
  (List.range k).foldl (fwdStepP tbl) (s, false)

/-- Pure counterpart of `fwdPass`. -/
def fwdPassP (tbl : Table) (s : FState) : FState × Bool :=
  fwdPrefix tbl s tbl.length

/-- The state after `q` pure forward passes from the zero state. -/
def fwdIter (tbl : Table) : Nat → FState
  | 0 => fwdInit
  | q + 1 => (fwdPassP tbl (fwdIter tbl q)).1

/-- The resolved predecessor row indices of a row. -/
def resolvedPredIdxs (tbl : Table) (t : CTask) : List Nat :=
  (rowPreds t).filterMap (fun c => resolveIdx tbl c)

/-- A table is well-formed when every referenced predecessor code
resolves (so no pass reaches `errorCodeMsg`). -/
def WFtable (tbl : Table) : Prop :=
  ∀ i < tbl.length, ∀ c ∈ rowPreds (tbl.getD i default),
    (resolveIdx tbl c).isSome = true

instance (tbl : Table) : Decidable (WFtable tbl) := by
  unfold WFtable; infer_instance

/-- A backwards path through predecessor edges: from `i`, each next
element is a resolved predecessor of the previous one. -/
inductive PredPath (tbl : Table) : Nat → List Nat → Prop where
  | nil (i : Nat) : PredPath tbl i []
  | cons {i j : Nat} {l : List Nat} :
      j ∈ resolvedPredIdxs tbl (tbl.getD i default) →
      PredPath tbl j l → PredPath tbl i (j :: l)

/-- Number of index-ascending steps along a path starting at `a`. -/
def ascents : Nat → List Nat → Nat
  | _, [] => 0
  | a, b :: l => (if a < b then 1 else 0) + ascents b l

/-- Every predecessor path from `i` makes fewer than `p` ascents. -/
def AscLt (tbl : Table) (i p : Nat) : Prop :=
  ∀ l, PredPath tbl i l → ascents i l < p

/-!
### Functional form of the indirect insertion sort

On a sorted prefix, the C shift loop of `insInner` inserts the new
element after every element of equal key (a stable insertion); the two
functions below express one insertion step structurally (`rinsAux` walks
the reversed prefix exactly as the shift loop does, `sinsert` is the
stable left-insertion it amounts to on a sorted prefix) and are proved
equal to `insInner` below. -/

/-- Stable left-insertion of `vi` before the first element whose key
strictly exceeds `v[vi]`. -/
def sinsert (v : List Int) (vi : Nat) : List Nat → List Nat
  | [] => [vi]
  | x :: xs =>
    if v.getD vi 0 < v.getD x 0 then vi :: x :: xs else x :: sinsert v vi xs

/-- `insInner` as a function of the reversed prefix before the write
position: shift elements onto `suf` while their key exceeds `v[vi]`. -/
def rinsAux (v : List Int) (vi : Nat) : List Nat → List Nat → List Nat
  | [], suf => vi :: suf
  | e :: rev, suf =>
    if v.getD vi 0 < v.getD e 0 then rinsAux v vi rev (e :: suf)
    else rev.reverse ++ e :: vi :: suf

end CPM

namespace CPM

/-!
## Claim theorems: concrete evaluations
-/

/-- C1 (code_bug evidence): on the well-formed acyclic table `rev2`
(`A` depends on `B`, but `B` is listed second), the forward pass declares
convergence after a single pass — the `changed` flag only tracks `ES`,
and in pass 1 only `EF[B]` changes (from `0` to `1`) — so the returned
fixed point has `ES = [0, 0]`, `EF = [1, 1]`, which violates the claimed
fixed-point equations: `A`'s resolved predecessor `B` has
`earliestFinish = 1`, yet `earliestStart A = 0 ≠ 1`. -/
theorem c1_forward_fixpoint_violated :
    (forwardPass rev2 5).map (Option.map (fwdExtract rev2)) =
      .ok (some ([0, 0], [1, 1], 1)) ∧
    ¬ specForwardEquations rev2 [0, 0] [1, 1] := by decide

/-- C4 (code_bug evidence): after `computeCPM` on the well-formed acyclic
table `rev3`, task `C` (duration 1) ends with `LF = 0` and `LS = 0`
(it is never updated by the backward pass because its only successor `B`
keeps `LF = 0`), so `latestFinish ≠ latestStart + duration`. -/
theorem c4_duration_invariant_violated :
    computeCPM rev3 10 = .ok (some rev3Result) ∧
    ¬ specDurInvariant rev3Result := by decide

/-- C5 (code_bug evidence): after `computeCPM` on the well-formed acyclic
table `rev2`, task `B` has `earliestStart = 0 > latestStart = -1` and
`slack = -1 < 0`. -/
theorem c5_slack_invariant_violated :
    computeCPM rev2 10 = .ok (some rev2Result) ∧
    ¬ specSlackInvariant rev2Result := by decide

/-- C6 (confirmed): on the diamond input, `computeCPM` yields
`A : ES 0, EF 2`, `B : ES 2, EF 5`, `C : ES 2, EF 3` with slack `2`,
`D : ES 5, EF 7`; the critical path string is `"A -> B -> D"` (excluding
`C`), and the project duration `max EF` is `7`. -/
theorem c6_diamond :
    computeCPM diamond 10 = .ok (some diamondResult) ∧
    critical_path_string diamondResult = "A -> B -> D" ∧
    diamondResult.slack.getD 2 0 = 2 ∧
    maxList diamondResult.ef = 7 := by decide

/-- C9 (counterexample): on `badPred`, whose task `B` references the
nonexistent predecessor `X`, the run does not return an
`UnknownPredecessorError` value to the caller; it reaches
`errorCodeMsg("X")`, which prints the message naming `X` and terminates
the process via `quit()` (modelled by `Except.error (.codeNotFound "X")`). -/
theorem c9_unknown_pred_quits :
    computeCPM badPred 5 = .error (.codeNotFound "X") := by decide

/-- C10 (confirmed): on a zero-task table, `computeCPM` returns
successfully with a zero-row annotated result, and
`critical_path_string` of that result is the empty string. -/
theorem c10_empty_table :
    computeCPM ([] : Table) 10 = .ok (some emptyResult) ∧
    critical_path_string emptyResult = "" := by decide

/-- C3 (counterexample): `seventeen` has 17 zero-slack tasks, all with
equal `earliestStart = 0`, yet `critical_path_string` does not preserve
the original input order of these equal-`ES` tasks: numpy's quicksort
partitions any range of 17 or more elements and scrambles equal keys. -/
theorem c3_tie_order_not_preserved :
    computeCPM seventeen 10 = .ok (some seventeenResult) ∧
    seventeenResult.slack = List.replicate 17 0 ∧
    seventeenResult.es = List.replicate 17 0 ∧
    critical_path_string seventeenResult =
      "T0 -> T14 -> T13 -> T12 -> T11 -> T10 -> T9 -> T15 -> T8 -> T6 -> T5 -> T4 -> T3 -> T2 -> T1 -> T7 -> T16" ∧
    critical_path_string seventeenResult ≠
      " -> ".intercalate seventeenResult.cods := by decide

/-- C8 (counterexample): on the acyclic table with `N = 0` tasks, the
forward pass still executes one full pass (the `while changed:` body runs
once before the flag is found false), exceeding the claimed bound of at
most `N = 0` passes. -/
theorem c8_empty_needs_one_pass :
    (forwardPass ([] : Table) 1).map (Option.map (fwdExtract [])) =
      .ok (some ([], [], 1)) ∧
    List.length ([] : Table) < 1 := by decide

end CPM

namespace CPM

/-!
## Claim C7: the propagation loop on a cyclic input
-/

/-- Symbolic form of one forward pass over `cyc2`. -/
lemma cyc2_pass (s : FState) :
    fwdPass cyc2 s = .ok
      (⟨fun k => if k = 1 then s.ef 1 + 1 else if k = 0 then s.ef 1 else s.es k,
        fun k => if k = 1 then s.ef 1 + 1 + 1 else if k = 0 then s.ef 1 + 1 else s.ef k⟩,
       (false || decide (s.ef 1 ≠ s.es 0)) || decide (s.ef 1 + 1 ≠ s.es 1)) := rfl

/-- On `cyc2`, from any state of the shape reached after a pass
(`ES = [a, a+1]`, `EF = [a+1, a+2]` at rows 0, 1), every further pass
changes `ES[0]` (to `a + 2`), so the loop never observes a fixed point. -/
lemma runFwd_cyc2_diverges : ∀ (fuel : Nat) (a : Int) (s : FState),
    s.es 0 = a → s.es 1 = a + 1 → s.ef 1 = a + 2 →
    runFwd cyc2 fuel s = .ok none := by
  intro fuel
  induction fuel with
  | zero => intro a s _ _ _; rfl
  | succ n ih =>
    intro a s h0 h1 h2
    have hch : ((false || decide (s.ef 1 ≠ s.es 0)) || decide (s.ef 1 + 1 ≠ s.es 1)) = true := by
      simp only [Bool.or_eq_true, decide_eq_true_eq]
      left; right; omega
    simp only [runFwd, cyc2_pass, Except.bind, Bind.bind, hch, if_true]
    have := ih (a + 2) ⟨fun k => if k = 1 then s.ef 1 + 1 else if k = 0 then s.ef 1 else s.es k,
        fun k => if k = 1 then s.ef 1 + 1 + 1 else if k = 0 then s.ef 1 + 1 else s.ef k⟩
      (by simp; omega) (by simp; omega) (by simp; omega)
    simp only [this, Except.bind]
    rfl

/-- C7 (code_bug evidence): on the cyclic input `cyc2` (two tasks, each
listing the other as predecessor), the forward `while changed:` loop
never converges, whatever number of passes it is allowed: the code
contains no pass-count ceiling and no `CyclicDependencyError`; the
process loops forever instead of aborting. -/
theorem c7_cycle_never_converges : ∀ fuel : Nat,
    forwardPass cyc2 fuel = .ok none := by
  intro fuel
  cases fuel with
  | zero => rfl
  | succ n =>
    have hstep := cyc2_pass fwdInit
    have hdiv := runFwd_cyc2_diverges n 0
      ⟨fun k => if k = 1 then fwdInit.ef 1 + 1 else if k = 0 then fwdInit.ef 1 else fwdInit.es k,
       fun k => if k = 1 then fwdInit.ef 1 + 1 + 1 else if k = 0 then fwdInit.ef 1 + 1 else fwdInit.ef k⟩
      (by simp [fwdInit]) (by simp [fwdInit]) (by simp [fwdInit]; try omega)
    simp only [forwardPass, runFwd, hstep, Except.bind, Bind.bind]
    have hch : ((false || decide (fwdInit.ef 1 ≠ fwdInit.es 0)) ||
        decide (fwdInit.ef 1 + 1 ≠ fwdInit.es 1)) = true := by
      simp [fwdInit]
    simp only [hch, if_true, hdiv, Except.bind]
    rfl

end CPM

namespace CPM

/-!
## Branch equations and error/success characterization of the passes
-/

lemma rowPreds_none {t : CTask} (h : t.pre = none) : rowPreds t = [] := by
  unfold rowPreds; rw [h]

lemma rowPreds_some {t : CTask} {p : String} (h : t.pre = some p) :
    rowPreds t = if p = "" then [] else splitPreds p := by
  unfold rowPreds; rw [h]

lemma fwdCompute_none {tbl : Table} {ef : Nat → Int} {t : CTask} (h : t.pre = none) :
    fwdCompute tbl ef t = .ok (0, t.dur) := by
  unfold fwdCompute; rw [h]

lemma fwdCompute_empty {tbl : Table} {ef : Nat → Int} {t : CTask} (h : t.pre = some "") :
    fwdCompute tbl ef t = .ok (0, t.dur) := by
  unfold fwdCompute; rw [h]; rfl

lemma fwdCompute_some {tbl : Table} {ef : Nat → Int} {t : CTask} {p : String}
    (h : t.pre = some p) (hne : p ≠ "") :
    fwdCompute tbl ef t = (maxEFfold tbl ef (splitPreds p) none).map (fun mx =>
      let nes : Int := match mx with | none => 0 | some m => m
      (nes, nes + t.dur)) := by
  unfold fwdCompute
  rw [h]
  show (if p = "" then Except.ok ((0 : Int), t.dur)
    else (maxEFfold tbl ef (splitPreds p) none).map (fun mx =>
      let nes : Int := match mx with | none => 0 | some m => m
      (nes, nes + t.dur))) = _
  rw [if_neg hne]

lemma getTaskIndex_error {tbl : Table} {c : String} {e : QuitError}
    (h : getTaskIndex tbl c = .error e) : e = .codeNotFound c := by
  unfold getTaskIndex at h
  split at h
  · cases h
  · split at h
    · cases h
    · cases h; rfl

/-- A `foldlM` over `Except` that succeeds ran every step successfully
from some intermediate accumulator. -/
lemma foldlM_ok_forall {ι α : Type} {f : α → ι → Except QuitError α} :
    ∀ {l : List ι} {a b : α}, l.foldlM f a = .ok b →
      ∀ i ∈ l, ∃ a' r, f a' i = .ok r := by
  intro l
  induction l with
  | nil => intro a b _ i hi; cases hi
  | cons x xs ih =>
    intro a b h i hi
    rw [List.foldlM_cons] at h
    cases hfx : f a x with
    | error e => rw [hfx] at h; cases h
    | ok a₁ =>
      rw [hfx] at h
      simp only [Except.bind, Bind.bind] at h
      rcases List.mem_cons.mp hi with rfl | hmem
      · exact ⟨a, a₁, hfx⟩
      · exact ih h i hmem

/-- A `foldlM` over `Except` that fails does so at one of its steps. -/
lemma foldlM_error_mem {ι α : Type} {f : α → ι → Except QuitError α} :
    ∀ {l : List ι} {a : α} {e : QuitError}, l.foldlM f a = .error e →
      ∃ i ∈ l, ∃ a', f a' i = .error e := by
  intro l
  induction l with
  | nil => intro a e h; cases h
  | cons x xs ih =>
    intro a e h
    rw [List.foldlM_cons] at h
    cases hfx : f a x with
    | error e' =>
      rw [hfx] at h
      simp only [Except.bind, Bind.bind] at h
      cases h
      exact ⟨x, List.mem_cons_self x xs, a, hfx⟩
    | ok a₁ =>
      rw [hfx] at h
      simp only [Except.bind, Bind.bind] at h
      obtain ⟨i, hi, a', hf⟩ := ih h
      exact ⟨i, List.mem_cons_of_mem x hi, a', hf⟩

lemma maxEFfold_ok_resolves {tbl : Table} {ef : Nat → Int} :
    ∀ {codes : List String} {acc r}, maxEFfold tbl ef codes acc = .ok r →
      ∀ c ∈ codes, ∃ oi, getTaskIndex tbl c = .ok oi := by
  intro codes
  induction codes with
  | nil => intro acc r _ c hc; cases hc
  | cons x xs ih =>
    intro acc r h c hc
    unfold maxEFfold at h
    cases hg : getTaskIndex tbl x with
    | error e => rw [hg] at h; cases h
    | ok oi =>
      rw [hg] at h
      simp only [Except.bind, Bind.bind] at h
      rcases List.mem_cons.mp hc with rfl | hmem
      · exact ⟨oi, hg⟩
      · cases oi with
        | none => exact ih h c hmem
        | some j => exact ih h c hmem

lemma maxEFfold_error_mem {tbl : Table} {ef : Nat → Int} :
    ∀ {codes : List String} {acc e}, maxEFfold tbl ef codes acc = .error e →
      ∃ c ∈ codes, getTaskIndex tbl c = .error e := by
  intro codes
  induction codes with
  | nil => intro acc e h; cases h
  | cons x xs ih =>
    intro acc e h
    unfold maxEFfold at h
    cases hg : getTaskIndex tbl x with
    | error e' =>
      rw [hg] at h
      simp only [Except.bind, Bind.bind] at h
      cases h
      exact ⟨x, List.mem_cons_self x xs, hg⟩
    | ok oi =>
      rw [hg] at h
      simp only [Except.bind, Bind.bind] at h
      cases oi with
      | none => obtain ⟨c, hc, hg'⟩ := ih h; exact ⟨c, List.mem_cons_of_mem x hc, hg'⟩
      | some j => obtain ⟨c, hc, hg'⟩ := ih h; exact ⟨c, List.mem_cons_of_mem x hc, hg'⟩

lemma fwdCompute_ok_resolves {tbl : Table} {ef : Nat → Int} {t : CTask} {r}
    (h : fwdCompute tbl ef t = .ok r) :
    ∀ c ∈ rowPreds t, ∃ oi, getTaskIndex tbl c = .ok oi := by
  intro c hc
  cases hp : t.pre with
  | none => rw [rowPreds_none hp] at hc; cases hc
  | some p =>
    by_cases hpe : p = ""
    · subst hpe; rw [rowPreds_some hp, if_pos rfl] at hc; cases hc
    · rw [rowPreds_some hp, if_neg hpe] at hc
      rw [fwdCompute_some hp hpe] at h
      cases hm : maxEFfold tbl ef (splitPreds p) none with
      | error e => rw [hm] at h; simp only [Except.map] at h; cases h
      | ok mx => exact maxEFfold_ok_resolves hm c hc

lemma fwdCompute_error_mem {tbl : Table} {ef : Nat → Int} {t : CTask} {e}
    (h : fwdCompute tbl ef t = .error e) :
    ∃ c ∈ rowPreds t, getTaskIndex tbl c = .error e := by
  cases hp : t.pre with
  | none => rw [fwdCompute_none hp] at h; cases h
  | some p =>
    by_cases hpe : p = ""
    · subst hpe; rw [fwdCompute_empty hp] at h; cases h
    · rw [rowPreds_some hp, if_neg hpe]
      rw [fwdCompute_some hp hpe] at h
      cases hm : maxEFfold tbl ef (splitPreds p) none with
      | error e' =>
        rw [hm] at h
        simp only [Except.map] at h
        cases h
        exact maxEFfold_error_mem hm
      | ok mx => rw [hm] at h; simp only [Except.map] at h; cases h

lemma fwdStep_ok_resolves {tbl : Table} {acc : FState × Bool} {i : Nat} {r}
    (h : fwdStep tbl acc i = .ok r) :
    ∀ c ∈ rowPreds (tbl.getD i default), ∃ oi, getTaskIndex tbl c = .ok oi := by
  unfold fwdStep at h
  cases hm : fwdCompute tbl acc.1.ef (tbl.getD i default) with
  | error e => rw [hm] at h; simp only [Except.map] at h; cases h
  | ok nv => exact fwdCompute_ok_resolves hm

lemma fwdStep_error_mem {tbl : Table} {acc : FState × Bool} {i : Nat} {e}
    (h : fwdStep tbl acc i = .error e) :
    ∃ c ∈ rowPreds (tbl.getD i default), getTaskIndex tbl c = .error e := by
  unfold fwdStep at h
  cases hm : fwdCompute tbl acc.1.ef (tbl.getD i default) with
  | error e' =>
    rw [hm] at h
    simp only [Except.map] at h
    cases h
    exact fwdCompute_error_mem hm
  | ok nv => rw [hm] at h; simp only [Except.map] at h; cases h

lemma fwdPass_ok_resolves {tbl : Table} {s : FState} {r}
    (h : fwdPass tbl s = .ok r) :
    ∀ i < tbl.length, ∀ c ∈ rowPreds (tbl.getD i default),
      ∃ oi, getTaskIndex tbl c = .ok oi := by
  intro i hi c hc
  unfold fwdPass at h
  obtain ⟨a', r', hstep⟩ := foldlM_ok_forall h i (List.mem_range.mpr hi)
  exact fwdStep_ok_resolves hstep c hc

lemma fwdPass_error_mem {tbl : Table} {s : FState} {e}
    (h : fwdPass tbl s = .error e) :
    ∃ i < tbl.length, ∃ c ∈ rowPreds (tbl.getD i default),
      getTaskIndex tbl c = .error e := by
  unfold fwdPass at h
  obtain ⟨i, hi, a', hstep⟩ := foldlM_error_mem h
  exact ⟨i, List.mem_range.mp hi, fwdStep_error_mem hstep⟩

lemma runFwd_error_of_pass {tbl : Table} {fuel : Nat} {s : FState} {e}
    (h : fwdPass tbl s = .error e) :
    runFwd tbl (fuel + 1) s = .error e := by
  simp only [runFwd, h, Except.bind, Bind.bind]

lemma computeCPM_error_of_fwd {tbl : Table} {fuel : Nat} {e}
    (h : forwardPass tbl fuel = .error e) :
    computeCPM tbl fuel = .error e := by
  unfold computeCPM
  simp only [h, Except.bind, Bind.bind]

/-!
## Claim C9: unknown predecessor codes
-/

/-- C9 (amended claim): whenever some row's predecessor field references
a code that matches no task code, the engine run (from the first pass
that scans it) ends in `errorCodeMsg`, which prints the message naming an
offending code and terminates the process via `quit()` — modelled as
`Except.error (.codeNotFound c)` for an actually-unresolvable referenced
code `c`; no error value is returned to the caller. -/
theorem c9_unknown_pred_error (tbl : Table) (fuel : Nat) (hfuel : 1 ≤ fuel)
    (hbad : ∃ i < tbl.length, ∃ c ∈ rowPreds (tbl.getD i default),
      getTaskIndex tbl c = .error (.codeNotFound c)) :
    ∃ c, (∃ i < tbl.length, c ∈ rowPreds (tbl.getD i default)) ∧
      getTaskIndex tbl c = .error (.codeNotFound c) ∧
      computeCPM tbl fuel = .error (.codeNotFound c) := by
  obtain ⟨i, hi, c, hc, hbadc⟩ := hbad
  cases hfp : fwdPass tbl fwdInit with
  | ok r =>
    obtain ⟨oi, hok⟩ := fwdPass_ok_resolves hfp i hi c hc
    rw [hok] at hbadc; cases hbadc
  | error e =>
    obtain ⟨i', hi', c', hc', hg⟩ := fwdPass_error_mem hfp
    have he := getTaskIndex_error hg
    subst he
    obtain ⟨f', rfl⟩ : ∃ f', fuel = f' + 1 := ⟨fuel - 1, by omega⟩
    exact ⟨c', ⟨i', hi', hc'⟩, hg,
      computeCPM_error_of_fwd (runFwd_error_of_pass hfp)⟩

/-- Witness for `c9_unknown_pred_error` at the concrete table `badPred`. -/
theorem c9_witness :
    ∃ c, (∃ i < badPred.length, c ∈ rowPreds (badPred.getD i default)) ∧
      getTaskIndex badPred c = .error (.codeNotFound c) ∧
      computeCPM badPred 5 = .error (.codeNotFound c) :=
  c9_unknown_pred_error badPred 5 (by decide) (by decide)

end CPM

namespace CPM

/-!
## Generic fold lemmas and backward-pass step properties
-/

lemma getTaskIndex_ok_some_lt {tbl : Table} {c : String} {j : Nat}
    (h : getTaskIndex tbl c = .ok (some j)) : j < tbl.length := by
  unfold getTaskIndex at h
  split at h
  · injection h with h; cases h
  · split at h
    · next i hf =>
      injection h with h
      injection h with h
      subst h
      exact (List.findIdx?_eq_some_iff_findIdx_eq.mp hf).1
    · cases h

/-- A flag-monotone `foldlM` keeps a raised flag raised. -/
lemma foldlM_flag_mono {ι α : Type} {f : α × Bool → ι → Except QuitError (α × Bool)}
    (hmono : ∀ a i r, f a i = .ok r → a.2 = true → r.2 = true) :
    ∀ {l : List ι} {a r}, l.foldlM f a = .ok r → a.2 = true → r.2 = true := by
  intro l
  induction l with
  | nil => intro a r h ha; cases h; exact ha
  | cons x xs ih =>
    intro a r h ha
    rw [List.foldlM_cons] at h
    cases hfx : f a x with
    | error e => rw [hfx] at h; cases h
    | ok a₁ =>
      rw [hfx] at h
      simp only [Except.bind, Bind.bind] at h
      exact ih h (hmono a x a₁ hfx ha)

/-- A flag-monotone fold whose steps are the identity whenever they
report no change: if the final flag is down, nothing ever changed and
every step fixes the initial accumulator. -/
lemma foldlM_false_fix {ι α : Type} {f : α × Bool → ι → Except QuitError (α × Bool)}
    (hmono : ∀ a i r, f a i = .ok r → a.2 = true → r.2 = true)
    (hid : ∀ a i r, f a i = .ok r → r.2 = false → r = a) :
    ∀ {l : List ι} {s : α} {r : α}, l.foldlM f (s, false) = .ok (r, false) →
      r = s ∧ ∀ i ∈ l, f (s, false) i = .ok (s, false) := by
  intro l
  induction l with
  | nil =>
    intro s r h
    cases h
    exact ⟨rfl, fun i hi => absurd hi (List.not_mem_nil i)⟩
  | cons x xs ih =>
    intro s r h
    rw [List.foldlM_cons] at h
    cases hfx : f (s, false) x with
    | error e => rw [hfx] at h; cases h
    | ok a₁ =>
      rw [hfx] at h
      simp only [Except.bind, Bind.bind] at h
      have ha1 : a₁.2 = false := by
        by_contra hne
        have : a₁.2 = true := by revert hne; cases a₁.2 <;> simp
        have := foldlM_flag_mono hmono h this
        simp at this
      have ha1' : a₁ = (s, false) := hid _ _ _ hfx ha1
      subst ha1'
      obtain ⟨hr, hall⟩ := ih h
      refine ⟨hr, fun i hi => ?_⟩
      rcases List.mem_cons.mp hi with rfl | hmem
      · exact hfx
      · exact hall i hmem

/-- Invariants carried through a successful `foldlM`. -/
lemma foldlM_invariant {ι α : Type} {f : α → ι → Except QuitError α} (P : α → Prop) :
    ∀ {l : List ι} {a b : α},
      (∀ a' i r, i ∈ l → f a' i = .ok r → P a' → P r) →
      l.foldlM f a = .ok b → P a → P b := by
  intro l
  induction l with
  | nil => intro a b _ h ha; cases h; exact ha
  | cons x xs ih =>
    intro a b hstep h ha
    rw [List.foldlM_cons] at h
    cases hfx : f a x with
    | error e => rw [hfx] at h; cases h
    | ok a₁ =>
      rw [hfx] at h
      simp only [Except.bind, Bind.bind] at h
      exact ih (fun a' i r hi => hstep a' i r (List.mem_cons_of_mem x hi)) h
        (hstep a x a₁ (List.mem_cons_self x xs) hfx ha)

lemma bwdApply_none (tbl : Table) (i : Nat) (acc : BState × Bool) :
    bwdApply tbl i acc none = acc := rfl

lemma bwdApply_some (tbl : Table) (i : Nat) (acc : BState × Bool) (m : Int) :
    bwdApply tbl i acc (some m) =
      (if m ≠ acc.1.lf i ∨ m - (tbl.getD i default).dur ≠ acc.1.ls i then
        (⟨fun k => if k = i then m - (tbl.getD i default).dur else acc.1.ls k,
          fun k => if k = i then m else acc.1.lf k⟩, true)
      else acc) := rfl

lemma bwdStep_mono {tbl : Table} {suc : Nat → List String} {a : BState × Bool} {i : Nat} {r}
    (h : bwdStep tbl suc a i = .ok r) (ha : a.2 = true) : r.2 = true := by
  unfold bwdStep at h
  split at h
  · cases h; exact ha
  · cases hm : minLSfold tbl a.1 (suc i) none with
    | error e => rw [hm] at h; cases h
    | ok mres =>
      rw [hm] at h
      simp only [Except.map] at h
      injection h with h
      subst h
      cases mres with
      | none => rw [bwdApply_none]; exact ha
      | some m =>
        rw [bwdApply_some]
        split
        · rfl
        · exact ha

lemma bwdStep_false_id {tbl : Table} {suc : Nat → List String} {a : BState × Bool} {i : Nat} {r}
    (h : bwdStep tbl suc a i = .ok r) (hr : r.2 = false) : r = a := by
  unfold bwdStep at h
  split at h
  · cases h; rfl
  · cases hm : minLSfold tbl a.1 (suc i) none with
    | error e => rw [hm] at h; cases h
    | ok mres =>
      rw [hm] at h
      simp only [Except.map] at h
      injection h with h
      subst h
      cases mres with
      | none => rw [bwdApply_none]
      | some m =>
        rw [bwdApply_some] at hr ⊢
        split at hr
        · cases hr
        · split
          · next hc1 hc2 => exact absurd hc2 hc1
          · rfl

lemma bwdStep_fix_eq {tbl : Table} {suc : Nat → List String} {s : BState} {i : Nat}
    (hne : suc i ≠ []) (h : bwdStep tbl suc (s, false) i = .ok (s, false)) :
    ∀ m : Int, minLSfold tbl s (suc i) none = .ok (some m) →
      s.lf i = m ∧ s.ls i = m - (tbl.getD i default).dur := by
  intro m hm
  unfold bwdStep at h
  rw [if_neg hne, hm] at h
  simp only [Except.map] at h
  injection h with h
  rw [bwdApply_some] at h
  split at h
  · injection h with h1 h2; cases h2
  · next hcond =>
    push_neg at hcond
    exact ⟨hcond.1.symm, hcond.2.symm⟩

lemma bwdStep_preserve {tbl : Table} {suc : Nat → List String} {a : BState × Bool} {i : Nat} {r}
    {j : Nat} (h : bwdStep tbl suc a i = .ok r) (hij : i ≠ j) :
    r.1.ls j = a.1.ls j ∧ r.1.lf j = a.1.lf j := by
  unfold bwdStep at h
  split at h
  · cases h; exact ⟨rfl, rfl⟩
  · cases hm : minLSfold tbl a.1 (suc i) none with
    | error e => rw [hm] at h; cases h
    | ok mres =>
      rw [hm] at h
      simp only [Except.map] at h
      injection h with h
      subst h
      cases mres with
      | none => rw [bwdApply_none]; exact ⟨rfl, rfl⟩
      | some m =>
        rw [bwdApply_some]
        split
        · refine ⟨?_, ?_⟩ <;>
          · show (if j = i then _ else _) = _
            rw [if_neg (fun hh => hij hh.symm)]
        · exact ⟨rfl, rfl⟩

lemma bwdStep_terminal_id {tbl : Table} {suc : Nat → List String} {a : BState × Bool} {i : Nat}
    (hi : suc i = []) : bwdStep tbl suc a i = .ok a := by
  unfold bwdStep
  rw [if_pos hi]

end CPM

namespace CPM

lemma bwdPass_fix {tbl : Table} {suc : Nat → List String} {s r : BState}
    (h : bwdPass tbl suc s = .ok (r, false)) :
    r = s ∧ ∀ i < tbl.length, bwdStep tbl suc (s, false) i = .ok (s, false) := by
  unfold bwdPass at h
  obtain ⟨hr, hall⟩ := foldlM_false_fix
    (fun a i r hh ha => bwdStep_mono hh ha)
    (fun a i r hh hf => bwdStep_false_id hh hf) h
  exact ⟨hr, fun i hi => hall i (by rw [List.mem_reverse]; exact List.mem_range.mpr hi)⟩

lemma runBwd_fix {tbl : Table} {suc : Nat → List String} :
    ∀ {fuel : Nat} {s t : BState} {p : Nat},
      runBwd tbl suc fuel s = .ok (some (t, p)) →
      ∃ s', bwdPass tbl suc s' = .ok (t, false) := by
  intro fuel
  induction fuel with
  | zero => intro s t p h; injection h with h; cases h
  | succ n ih =>
    intro s t p h
    unfold runBwd at h
    cases hp : bwdPass tbl suc s with
    | error e => rw [hp] at h; cases h
    | ok sc =>
      rw [hp] at h
      simp only [Except.bind, Bind.bind] at h
      obtain ⟨s', ch⟩ := sc
      cases ch with
      | true =>
        simp only [if_true] at h
        cases hr : runBwd tbl suc n s' with
        | error e => rw [hr] at h; cases h
        | ok o =>
          rw [hr] at h
          simp only [Except.bind, Bind.bind] at h
          cases o with
          | none => injection h with h; cases h
          | some tp =>
            obtain ⟨t', p'⟩ := tp
            injection h with h
            injection h with h
            injection h with h1 h2
            subst h1
            exact ih hr
      | false =>
        simp only [Bool.false_eq_true, if_false] at h
        injection h with h
        injection h with h
        injection h with h1 h2
        subst h1
        exact ⟨s, hp⟩

lemma runBwd_preserve {tbl : Table} {suc : Nat → List String} (P : BState → Prop)
    (hpass : ∀ s r b, bwdPass tbl suc s = .ok (r, b) → P s → P r) :
    ∀ {fuel : Nat} {s t : BState} {p : Nat},
      runBwd tbl suc fuel s = .ok (some (t, p)) → P s → P t := by
  intro fuel
  induction fuel with
  | zero => intro s t p h _; injection h with h; cases h
  | succ n ih =>
    intro s t p h hs
    unfold runBwd at h
    cases hp : bwdPass tbl suc s with
    | error e => rw [hp] at h; cases h
    | ok sc =>
      rw [hp] at h
      simp only [Except.bind, Bind.bind] at h
      obtain ⟨s', ch⟩ := sc
      have hs' : P s' := hpass s s' ch hp hs
      cases ch with
      | true =>
        simp only [if_true] at h
        cases hr : runBwd tbl suc n s' with
        | error e => rw [hr] at h; cases h
        | ok o =>
          rw [hr] at h
          simp only [Except.bind, Bind.bind] at h
          cases o with
          | none => injection h with h; cases h
          | some tp =>
            obtain ⟨t', p'⟩ := tp
            injection h with h
            injection h with h
            injection h with h1 h2
            subst h1
            exact ih hr hs'
      | false =>
        simp only [Bool.false_eq_true, if_false] at h
        injection h with h
        injection h with h
        injection h with h1 h2
        subst h1
        exact hs'

lemma bwdPass_preserve_terminal {tbl : Table} {suc : Nat → List String} {j : Nat}
    (hj : suc j = []) {s r : BState} {b : Bool}
    (h : bwdPass tbl suc s = .ok (r, b)) :
    r.ls j = s.ls j ∧ r.lf j = s.lf j := by
  unfold bwdPass at h
  have := foldlM_invariant
    (fun (a : BState × Bool) => a.1.ls j = s.ls j ∧ a.1.lf j = s.lf j)
    (l := (List.range tbl.length).reverse) (a := ((s, false) : BState × Bool)) (b := (r, b))
    ?_ h ⟨rfl, rfl⟩
  · exact this
  · intro a' i r' _ hstep ha'
    by_cases hij : i = j
    · subst hij
      rw [bwdStep_terminal_id hj] at hstep
      injection hstep with hstep
      subst hstep
      exact ha'
    · obtain ⟨h1, h2⟩ := bwdStep_preserve hstep hij
      exact ⟨h1.trans ha'.1, h2.trans ha'.2⟩

lemma bwdInit_fold_spec (tbl : Table) (suc : Nat → List String) (ef : Nat → Int) :
    ∀ (l : List Nat) (s : BState) (k : Nat),
      ((l.foldl (bwdInitStep tbl suc ef) s).lf k =
        if k ∈ l ∧ suc k = [] then ef k else s.lf k) ∧
      ((l.foldl (bwdInitStep tbl suc ef) s).ls k =
        if k ∈ l ∧ suc k = [] then ef k - (tbl.getD k default).dur else s.ls k) := by
  intro l
  induction l with
  | nil => intro s k; simp
  | cons x xs ih =>
    intro s k
    rw [List.foldl_cons]
    obtain ⟨ih1, ih2⟩ := ih (bwdInitStep tbl suc ef s x) k
    constructor
    · rw [ih1]
      by_cases hk1 : k ∈ xs ∧ suc k = []
      · rw [if_pos hk1, if_pos ⟨List.mem_cons_of_mem x hk1.1, hk1.2⟩]
      · rw [if_neg hk1]
        unfold bwdInitStep
        by_cases hx : suc x = []
        · rw [if_pos hx]
          by_cases hkx : k = x
          · subst hkx
            show (if k = k then ef k else s.lf k) = _
            rw [if_pos rfl, if_pos ⟨List.mem_cons_self k xs, hx⟩]
          · show (if k = x then ef x else s.lf k) = _
            rw [if_neg hkx, if_neg (fun hh => hk1 ⟨(List.mem_cons.mp hh.1).resolve_left hkx, hh.2⟩)]
        · rw [if_neg hx]
          rw [if_neg (fun hh => ?_)]
          rcases List.mem_cons.mp hh.1 with rfl | hmem
          · exact hx hh.2
          · exact hk1 ⟨hmem, hh.2⟩
    · rw [ih2]
      by_cases hk1 : k ∈ xs ∧ suc k = []
      · rw [if_pos hk1, if_pos ⟨List.mem_cons_of_mem x hk1.1, hk1.2⟩]
      · rw [if_neg hk1]
        unfold bwdInitStep
        by_cases hx : suc x = []
        · rw [if_pos hx]
          by_cases hkx : k = x
          · subst hkx
            show (if k = k then ef k - (tbl.getD k default).dur else s.ls k) = _
            rw [if_pos rfl, if_pos ⟨List.mem_cons_self k xs, hx⟩]
          · show (if k = x then ef x - (tbl.getD x default).dur else s.ls k) = _
            rw [if_neg hkx, if_neg (fun hh => hk1 ⟨(List.mem_cons.mp hh.1).resolve_left hkx, hh.2⟩)]
        · rw [if_neg hx]
          rw [if_neg (fun hh => ?_)]
          rcases List.mem_cons.mp hh.1 with rfl | hmem
          · exact hx hh.2
          · exact hk1 ⟨hmem, hh.2⟩

lemma bwdInit_terminal {tbl : Table} {suc : Nat → List String} {ef : Nat → Int} {i : Nat}
    (hi : i < tbl.length) (hterm : suc i = []) :
    (bwdInit tbl suc ef).lf i = ef i ∧
    (bwdInit tbl suc ef).ls i = ef i - (tbl.getD i default).dur := by
  unfold bwdInit
  obtain ⟨h1, h2⟩ := bwdInit_fold_spec tbl suc ef (List.range tbl.length) ⟨fun _ => 0, fun _ => 0⟩ i
  rw [h1, h2, if_pos ⟨List.mem_range.mpr hi, hterm⟩, if_pos ⟨List.mem_range.mpr hi, hterm⟩]
  exact ⟨rfl, rfl⟩

end CPM

namespace CPM

lemma minLSfold_congr {tbl : Table} {s1 s2 : BState}
    (hag : ∀ j < tbl.length, s1.ls j = s2.ls j ∧ s1.lf j = s2.lf j) :
    ∀ (codes : List String) (acc : Option Int),
      minLSfold tbl s1 codes acc = minLSfold tbl s2 codes acc := by
  intro codes
  induction codes with
  | nil => intro acc; rfl
  | cons x xs ih =>
    intro acc
    unfold minLSfold
    cases hg : getTaskIndex tbl x with
    | error e => rfl
    | ok oi =>
      cases oi with
      | none => rfl
      | some j =>
        have hj := getTaskIndex_ok_some_lt hg
        obtain ⟨hls, hlf⟩ := hag j hj
        simp only [Except.bind, Bind.bind, hls, hlf]
        by_cases hz : s2.lf j ≠ 0
        · rw [if_pos hz, if_pos hz]
          cases acc with
          | none => rw [ih]
          | some m => rw [ih]
        · rw [if_neg hz, if_neg hz, ih]

lemma getD_map_range {α : Type} (f : Nat → α) (d : α) {n i : Nat} (hi : i < n) :
    ((List.range n).map f).getD i d = f i := by
  rw [List.getD_eq_getElem?_getD, List.getElem?_map, List.getElem?_range hi]
  rfl

lemma computeCPM_ok_parts {tbl : Table} {fuel : Nat} {r : CPMResult}
    (h : computeCPM tbl fuel = .ok (some r)) :
    ∃ fs pf suc bs pb,
      forwardPass tbl fuel = .ok (some (fs, pf)) ∧
      sucBuild tbl = .ok suc ∧
      runBwd tbl suc fuel (bwdInit tbl suc fs.ef) = .ok (some (bs, pb)) ∧
      r = ⟨tbl.map (fun t => t.cod), tbl.map (fun t => t.dur),
           (List.range tbl.length).map fs.es, (List.range tbl.length).map fs.ef,
           (List.range tbl.length).map bs.ls, (List.range tbl.length).map bs.lf,
           (List.range tbl.length).map (fun i => bs.ls i - fs.es i)⟩ := by
  unfold computeCPM at h
  cases hf : forwardPass tbl fuel with
  | error e => rw [hf] at h; cases h
  | ok o =>
    rw [hf] at h
    simp only [Except.bind, Bind.bind] at h
    cases o with
    | none => injection h with h; cases h
    | some fp =>
      obtain ⟨fs, pf⟩ := fp
      unfold backwardPass at h
      cases hsb : sucBuild tbl with
      | error e => rw [hsb] at h; cases h
      | ok suc =>
        rw [hsb] at h
        simp only [Except.bind, Bind.bind] at h
        cases hrb : runBwd tbl suc fuel (bwdInit tbl suc fs.ef) with
        | error e => rw [hrb] at h; cases h
        | ok o2 =>
          rw [hrb] at h
          simp only [Except.bind, Bind.bind] at h
          cases o2 with
          | none => injection h with h; cases h
          | some bp =>
            obtain ⟨bs, pb⟩ := bp
            injection h with h
            injection h with h
            exact ⟨fs, pf, suc, bs, pb, rfl, rfl, hrb, h.symm⟩

end CPM

namespace CPM

/-- C2 (confirmed): whenever `computeCPM` returns (both loops converged),
the backward results satisfy the claimed fixed-point equations, with
"successor whose latestFinish has already been computed" read as the
code's own test `LF != 0`: every terminal task (empty list in the
successor map `SUC` built from predecessor edges) has
`latestFinish = earliestFinish` and `latestStart = latestFinish -
duration`, and every non-terminal task whose `min_ls` fold over its
successors yields a finite value `m` has `latestFinish = m` (the minimum
`LS` over successors with `LF != 0`) and `latestStart = latestFinish -
duration`. -/
theorem c2_backward_fixpoint_equations (tbl : Table) (fuel : Nat) (r : CPMResult)
    (sucL : List (List String))
    (hr : computeCPM tbl fuel = .ok (some r))
    (hs : (sucBuild tbl).map (fun f => (List.range tbl.length).map f) = .ok sucL) :
    ∀ i < tbl.length,
      (sucL.getD i [] = [] →
        r.lf.getD i 0 = r.ef.getD i 0 ∧
        r.ls.getD i 0 = r.ef.getD i 0 - (tbl.getD i default).dur) ∧
      (sucL.getD i [] ≠ [] →
        ∀ m : Int,
          minLSfold tbl ⟨fun j => r.ls.getD j 0, fun j => r.lf.getD j 0⟩
            (sucL.getD i []) none = .ok (some m) →
          r.lf.getD i 0 = m ∧ r.ls.getD i 0 = m - (tbl.getD i default).dur) := by
  obtain ⟨fs, pf, suc, bs, pb, hf, hsb, hrb, hrec⟩ := computeCPM_ok_parts hr
  rw [hsb] at hs
  simp only [Except.map] at hs
  injection hs with hs
  have hlfl : r.lf = (List.range tbl.length).map bs.lf := by rw [hrec]
  have hlsl : r.ls = (List.range tbl.length).map bs.ls := by rw [hrec]
  have hefl : r.ef = (List.range tbl.length).map fs.ef := by rw [hrec]
  intro i hi
  have hsucL : sucL.getD i [] = suc i := by
    rw [← hs]; exact getD_map_range suc [] hi
  have hagree : ∀ j < tbl.length,
      (⟨fun j => r.ls.getD j 0, fun j => r.lf.getD j 0⟩ : BState).ls j = bs.ls j ∧
      (⟨fun j => r.ls.getD j 0, fun j => r.lf.getD j 0⟩ : BState).lf j = bs.lf j := by
    intro j hj
    constructor
    · show r.ls.getD j 0 = bs.ls j
      rw [hlsl]; exact getD_map_range bs.ls 0 hj
    · show r.lf.getD j 0 = bs.lf j
      rw [hlfl]; exact getD_map_range bs.lf 0 hj
  constructor
  · -- terminal
    intro hterm
    rw [hsucL] at hterm
    have hinit := @bwdInit_terminal tbl suc fs.ef i hi hterm
    have hP := runBwd_preserve
      (fun s => s.lf i = fs.ef i ∧ s.ls i = fs.ef i - (tbl.getD i default).dur)
      (fun s rr b hp hsP => by
        obtain ⟨h1, h2⟩ := bwdPass_preserve_terminal hterm hp
        exact ⟨h2.trans hsP.1, h1.trans hsP.2⟩) hrb hinit
    rw [hlfl, hlsl, hefl, getD_map_range bs.lf 0 hi, getD_map_range bs.ls 0 hi,
      getD_map_range fs.ef 0 hi]
    exact hP
  · -- non-terminal
    intro hne m hm
    rw [hsucL] at hne hm
    rw [minLSfold_congr hagree (suc i) none] at hm
    obtain ⟨s', hpass⟩ := runBwd_fix hrb
    obtain ⟨heq, hsteps⟩ := bwdPass_fix hpass
    subst heq
    have heqs := bwdStep_fix_eq hne (hsteps i hi) m hm
    constructor
    · rw [hlfl, getD_map_range bs.lf 0 hi]; exact heqs.1
    · rw [hlsl, getD_map_range bs.ls 0 hi]; exact heqs.2

end CPM

namespace CPM

/-- Witness for `c2_backward_fixpoint_equations` on the diamond input:
task `B` (row 1) is non-terminal with successor list `["D"]`; the
backward fixed point satisfies `LF[B] = min LS of computed successors
= LS[D] = 5` and `LS[B] = 5 - duration(B)`. -/
theorem c2_witness :
    diamondResult.lf.getD 1 0 = 5 ∧
    diamondResult.ls.getD 1 0 = 5 - (diamond.getD 1 default).dur :=
  (c2_backward_fixpoint_equations diamond 10 diamondResult
    [["B", "C"], ["D"], ["D"], []] (by decide) (by decide) 1 (by decide)).2
    (by decide) 5 (by decide)

end CPM

namespace CPM

lemma fwdPrefix_zero (tbl : Table) (s : FState) : fwdPrefix tbl s 0 = (s, false) := rfl

lemma fwdPrefix_succ (tbl : Table) (s : FState) (k : Nat) :
    fwdPrefix tbl s (k + 1) = fwdStepP tbl (fwdPrefix tbl s k) k := by
  unfold fwdPrefix
  rw [List.range_succ, List.foldl_append, List.foldl_cons, List.foldl_nil]

lemma fwdPrefix_comp_ge {tbl : Table} {s : FState} :
    ∀ {k j : Nat}, k ≤ j →
      (fwdPrefix tbl s k).1.es j = s.es j ∧ (fwdPrefix tbl s k).1.ef j = s.ef j := by
  intro k
  induction k with
  | zero => intro j _; exact ⟨rfl, rfl⟩
  | succ m ih =>
    intro j hj
    rw [fwdPrefix_succ]
    unfold fwdStepP
    have hne : j ≠ m := by omega
    obtain ⟨h1, h2⟩ := ih (Nat.le_of_succ_le hj)
    exact ⟨by show (if j = m then _ else _) = _; rw [if_neg hne]; exact h1,
           by show (if j = m then _ else _) = _; rw [if_neg hne]; exact h2⟩

lemma fwdPrefix_comp_gt {tbl : Table} {s : FState} :
    ∀ {k j : Nat}, j < k →
      (fwdPrefix tbl s k).1.es j = (fwdPrefix tbl s (j + 1)).1.es j ∧
      (fwdPrefix tbl s k).1.ef j = (fwdPrefix tbl s (j + 1)).1.ef j := by
  intro k
  induction k with
  | zero => intro j hj; cases hj
  | succ m ih =>
    intro j hj
    by_cases hjm : j = m
    · subst hjm; exact ⟨rfl, rfl⟩
    · have hlt : j < m := by omega
      rw [fwdPrefix_succ]
      unfold fwdStepP
      obtain ⟨h1, h2⟩ := ih hlt
      exact ⟨by show (if j = m then _ else _) = _; rw [if_neg hjm]; exact h1,
             by show (if j = m then _ else _) = _; rw [if_neg hjm]; exact h2⟩

lemma fwdPrefix_es_write {tbl : Table} {s : FState} (j : Nat) :
    (fwdPrefix tbl s (j + 1)).1.es j =
      (fwdComputeP tbl (fwdPrefix tbl s j).1.ef (tbl.getD j default)).1 ∧
    (fwdPrefix tbl s (j + 1)).1.ef j =
      (fwdComputeP tbl (fwdPrefix tbl s j).1.ef (tbl.getD j default)).2 := by
  rw [fwdPrefix_succ]
  unfold fwdStepP
  exact ⟨by show (if j = j then _ else _) = _; rw [if_pos rfl],
         by show (if j = j then _ else _) = _; rw [if_pos rfl]⟩

lemma fwdPassP_comp {tbl : Table} {s : FState} {j : Nat} (hj : j < tbl.length) :
    (fwdPassP tbl s).1.es j =
      (fwdComputeP tbl (fwdPrefix tbl s j).1.ef (tbl.getD j default)).1 ∧
    (fwdPassP tbl s).1.ef j =
      (fwdComputeP tbl (fwdPrefix tbl s j).1.ef (tbl.getD j default)).2 := by
  unfold fwdPassP
  obtain ⟨h1, h2⟩ := @fwdPrefix_comp_gt tbl s tbl.length j hj
  obtain ⟨h3, h4⟩ := @fwdPrefix_es_write tbl s j
  exact ⟨h1.trans h3, h2.trans h4⟩

lemma fwdPrefix_ef_mix {tbl : Table} {s : FState} {i j : Nat} (hi : i ≤ tbl.length) :
    (fwdPrefix tbl s i).1.ef j =
      if j < i then (fwdPassP tbl s).1.ef j else s.ef j := by
  by_cases hj : j < i
  · rw [if_pos hj]
    obtain ⟨_, h2⟩ := @fwdPrefix_comp_gt tbl s i j hj
    obtain ⟨_, h4⟩ := @fwdPrefix_comp_gt tbl s tbl.length j (Nat.lt_of_lt_of_le hj hi)
    exact h2.trans h4.symm
  · rw [if_neg hj]
    exact (fwdPrefix_comp_ge (Nat.le_of_not_lt hj)).2

lemma fwdPrefix_flag {tbl : Table} {s : FState} :
    ∀ {k : Nat}, ((fwdPrefix tbl s k).2 = false ↔
      ∀ i < k, (fwdPrefix tbl s k).1.es i = s.es i) := by
  intro k
  induction k with
  | zero => simp [fwdPrefix_zero]
  | succ m ih =>
    have hstep := fwdPrefix_succ tbl s m
    have hesm : (fwdPrefix tbl s m).1.es m = s.es m :=
      (fwdPrefix_comp_ge (Nat.le_refl m)).1
    have hwrite : ∀ i, (fwdPrefix tbl s (m + 1)).1.es i =
        if i = m then (fwdComputeP tbl (fwdPrefix tbl s m).1.ef (tbl.getD m default)).1
        else (fwdPrefix tbl s m).1.es i := by
      intro i; rw [hstep]; rfl
    have hflag : (fwdPrefix tbl s (m + 1)).2 =
        ((fwdPrefix tbl s m).2 ||
          decide ((fwdComputeP tbl (fwdPrefix tbl s m).1.ef (tbl.getD m default)).1
            ≠ (fwdPrefix tbl s m).1.es m)) := by
      rw [hstep]; rfl
    rw [hflag]
    simp only [Bool.or_eq_false_iff, decide_eq_false_iff_not, not_not]
    constructor
    · rintro ⟨h1, h2⟩ i hi
      rw [hwrite]
      by_cases him : i = m
      · rw [if_pos him]; subst him; exact h2.trans hesm
      · rw [if_neg him]; exact ih.mp h1 i (by omega)
    · intro hall
      constructor
      · rw [ih]
        intro i hi
        have hh := hall i (by omega)
        rw [hwrite i, if_neg (by omega : i ≠ m)] at hh
        exact hh
      · have hh := hall m (by omega)
        rw [hwrite m, if_pos rfl] at hh
        exact hh.trans hesm.symm

lemma fwdPassP_flag {tbl : Table} {s : FState} :
    (fwdPassP tbl s).2 = false ↔
      ∀ i < tbl.length, (fwdPassP tbl s).1.es i = s.es i :=
  fwdPrefix_flag

end CPM

namespace CPM

lemma maxEFfoldP_cons_empty (tbl : Table) (ef : Nat → Int) (cs : List String) (acc : Option Int) :
    maxEFfoldP tbl ef ("" :: cs) acc = maxEFfoldP tbl ef cs acc := rfl

lemma maxEFfoldP_cons_none {tbl : Table} {ef : Nat → Int} {c : String} {cs : List String}
    {acc : Option Int} (hne : c ≠ "") (hr : resolveIdx tbl c = none) :
    maxEFfoldP tbl ef (c :: cs) acc = maxEFfoldP tbl ef cs acc := by
  have h0 : maxEFfoldP tbl ef (c :: cs) acc =
      (if c = "" then maxEFfoldP tbl ef cs acc
       else match resolveIdx tbl c with
         | none => maxEFfoldP tbl ef cs acc
         | some j => maxEFfoldP tbl ef cs (some (match acc with
             | none => ef j
             | some m => max m (ef j)))) := rfl
  rw [h0, if_neg hne, hr]

lemma maxEFfoldP_cons_some {tbl : Table} {ef : Nat → Int} {c : String} {cs : List String}
    {acc : Option Int} {j : Nat} (hne : c ≠ "") (hr : resolveIdx tbl c = some j) :
    maxEFfoldP tbl ef (c :: cs) acc =
      maxEFfoldP tbl ef cs (some (match acc with
        | none => ef j
        | some m => max m (ef j))) := by
  have h0 : maxEFfoldP tbl ef (c :: cs) acc =
      (if c = "" then maxEFfoldP tbl ef cs acc
       else match resolveIdx tbl c with
         | none => maxEFfoldP tbl ef cs acc
         | some j => maxEFfoldP tbl ef cs (some (match acc with
             | none => ef j
             | some m => max m (ef j)))) := rfl
  rw [h0, if_neg hne, hr]

lemma maxEFfold_cons_empty (tbl : Table) (ef : Nat → Int) (cs : List String) (acc : Option Int) :
    maxEFfold tbl ef ("" :: cs) acc = maxEFfold tbl ef cs acc := rfl

lemma maxEFfold_cons_some {tbl : Table} {ef : Nat → Int} {c : String} {cs : List String}
    {acc : Option Int} {j : Nat} (hgt : getTaskIndex tbl c = .ok (some j)) :
    maxEFfold tbl ef (c :: cs) acc =
      maxEFfold tbl ef cs (some (match acc with
        | none => ef j
        | some m => max m (ef j))) := by
  have h0 : maxEFfold tbl ef (c :: cs) acc =
      (getTaskIndex tbl c >>= fun oi =>
        match oi with
        | none => maxEFfold tbl ef cs acc
        | some j => maxEFfold tbl ef cs (some (match acc with
            | none => ef j
            | some m => max m (ef j)))) := rfl
  rw [h0, hgt]
  rfl

lemma resolveIdx_some_getTaskIndex {tbl : Table} {c : String} {j : Nat} (hne : c ≠ "")
    (hr : resolveIdx tbl c = some j) : getTaskIndex tbl c = .ok (some j) := by
  unfold getTaskIndex
  rw [if_neg hne]
  unfold resolveIdx at hr
  rw [hr]

lemma maxEFfold_eq_pure {tbl : Table} {ef : Nat → Int} :
    ∀ {codes : List String},
      (∀ c ∈ codes, c ≠ "" → (resolveIdx tbl c).isSome = true) →
      ∀ acc, maxEFfold tbl ef codes acc = .ok (maxEFfoldP tbl ef codes acc) := by
  intro codes
  induction codes with
  | nil => intro _ acc; rfl
  | cons x xs ih =>
    intro h acc
    by_cases hx : x = ""
    · subst hx
      rw [maxEFfold_cons_empty, maxEFfoldP_cons_empty]
      exact ih (fun c hc => h c (List.mem_cons_of_mem _ hc)) acc
    · cases hr : resolveIdx tbl x with
      | none =>
        have := h x (List.mem_cons_self x xs) hx
        rw [hr] at this
        cases this
      | some j =>
        rw [maxEFfold_cons_some (resolveIdx_some_getTaskIndex hx hr),
          maxEFfoldP_cons_some hx hr]
        exact ih (fun c hc => h c (List.mem_cons_of_mem _ hc)) _

lemma maxEFfoldP_congr {tbl : Table} {ef1 ef2 : Nat → Int} :
    ∀ {codes : List String},
      (∀ c ∈ codes, ∀ j, resolveIdx tbl c = some j → ef1 j = ef2 j) →
      ∀ acc, maxEFfoldP tbl ef1 codes acc = maxEFfoldP tbl ef2 codes acc := by
  intro codes
  induction codes with
  | nil => intro _ acc; rfl
  | cons x xs ih =>
    intro h acc
    by_cases hx : x = ""
    · subst hx
      rw [maxEFfoldP_cons_empty, maxEFfoldP_cons_empty]
      exact ih (fun c hc => h c (List.mem_cons_of_mem _ hc)) acc
    · cases hr : resolveIdx tbl x with
      | none =>
        rw [maxEFfoldP_cons_none hx hr, maxEFfoldP_cons_none hx hr]
        exact ih (fun c hc => h c (List.mem_cons_of_mem _ hc)) acc
      | some j =>
        rw [maxEFfoldP_cons_some hx hr, maxEFfoldP_cons_some hx hr,
          h x (List.mem_cons_self x xs) j hr]
        exact ih (fun c hc => h c (List.mem_cons_of_mem _ hc)) _

lemma fwdComputeP_none {tbl : Table} {ef : Nat → Int} {t : CTask} (h : t.pre = none) :
    fwdComputeP tbl ef t = (0, t.dur) := by
  unfold fwdComputeP; rw [h]

lemma fwdComputeP_empty {tbl : Table} {ef : Nat → Int} {t : CTask} (h : t.pre = some "") :
    fwdComputeP tbl ef t = (0, t.dur) := by
  unfold fwdComputeP; rw [h]; rfl

lemma fwdComputeP_some {tbl : Table} {ef : Nat → Int} {t : CTask} {p : String}
    (h : t.pre = some p) (hne : p ≠ "") :
    fwdComputeP tbl ef t =
      (esOf (maxEFfoldP tbl ef (splitPreds p) none),
       esOf (maxEFfoldP tbl ef (splitPreds p) none) + t.dur) := by
  unfold fwdComputeP
  rw [h]
  show (if p = "" then ((0 : Int), t.dur)
    else
      let mx := maxEFfoldP tbl ef (splitPreds p) none
      (esOf mx, esOf mx + t.dur)) = _
  rw [if_neg hne]

lemma fwdComputeP_congr {tbl : Table} {ef1 ef2 : Nat → Int} {t : CTask}
    (h : ∀ j ∈ resolvedPredIdxs tbl t, ef1 j = ef2 j) :
    fwdComputeP tbl ef1 t = fwdComputeP tbl ef2 t := by
  cases hp : t.pre with
  | none => rw [fwdComputeP_none hp, fwdComputeP_none hp]
  | some p =>
    by_cases hpe : p = ""
    · subst hpe; rw [fwdComputeP_empty hp, fwdComputeP_empty hp]
    · have hc : ∀ c ∈ splitPreds p, ∀ j, resolveIdx tbl c = some j → ef1 j = ef2 j := by
        intro c hcm j hr
        refine h j ?_
        unfold resolvedPredIdxs
        rw [List.mem_filterMap]
        refine ⟨c, ?_, hr⟩
        rw [rowPreds_some hp, if_neg hpe]
        exact hcm
      rw [fwdComputeP_some hp hpe, fwdComputeP_some hp hpe, maxEFfoldP_congr hc none]

lemma resolvedPredIdxs_lt {tbl : Table} {t : CTask} {j : Nat}
    (h : j ∈ resolvedPredIdxs tbl t) : j < tbl.length := by
  unfold resolvedPredIdxs at h
  rw [List.mem_filterMap] at h
  obtain ⟨c, _, hr⟩ := h
  unfold resolveIdx at hr
  exact (List.findIdx?_eq_some_iff_findIdx_eq.mp hr).1

lemma splitPreds_ne_empty {p : String} {c : String} (h : c ∈ splitPreds p) : c ≠ "" := by
  unfold splitPreds at h
  rw [List.mem_filter] at h
  exact fun hc => by simp [hc] at h

lemma rowPreds_ne_empty {t : CTask} {c : String} (h : c ∈ rowPreds t) : c ≠ "" := by
  cases hp : t.pre with
  | none => rw [rowPreds_none hp] at h; cases h
  | some p =>
    rw [rowPreds_some hp] at h
    by_cases hpe : p = ""
    · rw [if_pos hpe] at h; cases h
    · rw [if_neg hpe] at h; exact splitPreds_ne_empty h

end CPM

namespace CPM

lemma fwdCompute_eq_pure {tbl : Table} {ef : Nat → Int} {t : CTask}
    (h : ∀ c ∈ rowPreds t, (resolveIdx tbl c).isSome = true) :
    fwdCompute tbl ef t = .ok (fwdComputeP tbl ef t) := by
  cases hp : t.pre with
  | none => rw [fwdCompute_none hp, fwdComputeP_none hp]
  | some p =>
    by_cases hpe : p = ""
    · subst hpe; rw [fwdCompute_empty hp, fwdComputeP_empty hp]
    · rw [fwdCompute_some hp hpe, fwdComputeP_some hp hpe]
      have hres : ∀ c ∈ splitPreds p, c ≠ "" → (resolveIdx tbl c).isSome = true := by
        intro c hc _
        refine h c ?_
        rw [rowPreds_some hp, if_neg hpe]
        exact hc
      rw [maxEFfold_eq_pure hres none]
      rfl

lemma fwdStep_eq_pure {tbl : Table} {acc : FState × Bool} {i : Nat}
    (h : ∀ c ∈ rowPreds (tbl.getD i default), (resolveIdx tbl c).isSome = true) :
    fwdStep tbl acc i = .ok (fwdStepP tbl acc i) := by
  unfold fwdStep fwdStepP
  rw [fwdCompute_eq_pure h]
  rfl

lemma fwdPass_eq_pure {tbl : Table} (hwf : WFtable tbl) (s : FState) :
    fwdPass tbl s = .ok (fwdPassP tbl s) := by
  unfold fwdPass fwdPassP fwdPrefix
  have : ∀ (l : List Nat), (∀ i ∈ l, i < tbl.length) → ∀ (a : FState × Bool),
      l.foldlM (fwdStep tbl) a = .ok (l.foldl (fwdStepP tbl) a) := by
    intro l
    induction l with
    | nil => intro _ a; rfl
    | cons x xs ih =>
      intro hmem a
      rw [List.foldlM_cons, List.foldl_cons,
        fwdStep_eq_pure (hwf x (hmem x (List.mem_cons_self x xs)))]
      simp only [Except.bind, Bind.bind]
      exact ih (fun i hi => hmem i (List.mem_cons_of_mem x hi)) _
  exact this (List.range tbl.length) (fun i hi => List.mem_range.mp hi) (s, false)

lemma fwdIter_succ (tbl : Table) (q : Nat) :
    fwdIter tbl (q + 1) = (fwdPassP tbl (fwdIter tbl q)).1 := rfl

lemma runFwd_pure_converges {tbl : Table} (hwf : WFtable tbl) :
    ∀ (fuel q : Nat),
      (∃ q', q ≤ q' ∧ q' < q + fuel ∧ (fwdPassP tbl (fwdIter tbl q')).2 = false) →
      ∃ sp : FState × Nat, runFwd tbl fuel (fwdIter tbl q) = .ok (some sp) ∧ sp.2 ≤ fuel := by
  intro fuel
  induction fuel with
  | zero =>
    intro q ⟨q', hq1, hq2, _⟩
    omega
  | succ n ih =>
    intro q hex
    have hpass := fwdPass_eq_pure hwf (fwdIter tbl q)
    unfold runFwd
    rw [hpass]
    simp only [Except.bind, Bind.bind]
    cases hflag : (fwdPassP tbl (fwdIter tbl q)).2 with
    | false =>
      refine ⟨((fwdPassP tbl (fwdIter tbl q)).1, 1), ?_, by omega⟩
      rw [show (fwdPassP tbl (fwdIter tbl q)) =
        ((fwdPassP tbl (fwdIter tbl q)).1, (fwdPassP tbl (fwdIter tbl q)).2) from rfl, hflag]
      rfl
    | true =>
      obtain ⟨q', hq1, hq2, hq3⟩ := hex
      have hq1' : q + 1 ≤ q' := by
        rcases Nat.eq_or_lt_of_le hq1 with rfl | h
        · rw [hflag] at hq3; cases hq3
        · exact h
      obtain ⟨⟨t, p⟩, hrun, hp⟩ := ih (q + 1) ⟨q', hq1', by omega, hq3⟩
      refine ⟨(t, p + 1), ?_, by omega⟩
      rw [show (fwdPassP tbl (fwdIter tbl q)) =
        ((fwdPassP tbl (fwdIter tbl q)).1, (fwdPassP tbl (fwdIter tbl q)).2) from rfl, hflag]
      have : runFwd tbl n (fwdIter tbl (q + 1)) = .ok (some (t, p)) := hrun
      rw [fwdIter_succ] at this
      show (do
        match ← runFwd tbl n (fwdPassP tbl (fwdIter tbl q)).1 with
        | none => pure none
        | some (t, p) => pure (some (t, p + 1))) = _
      rw [this]
      rfl

end CPM

namespace CPM

lemma AscLt_desc {tbl : Table} {i j p : Nat}
    (hmem : j ∈ resolvedPredIdxs tbl (tbl.getD i default)) (hji : j < i)
    (h : AscLt tbl i p) : AscLt tbl j p := by
  intro l hl
  have hpath := h (j :: l) (PredPath.cons hmem hl)
  have heq : ascents i (j :: l) = ascents j l := by
    show (if i < j then 1 else 0) + ascents j l = ascents j l
    rw [if_neg (by omega)]
    omega
  rw [heq] at hpath
  exact hpath

lemma AscLt_asc {tbl : Table} {i j p : Nat}
    (hmem : j ∈ resolvedPredIdxs tbl (tbl.getD i default)) (hij : i < j)
    (h : AscLt tbl i p) : AscLt tbl j (p - 1) := by
  intro l hl
  have hpath := h (j :: l) (PredPath.cons hmem hl)
  have heq : ascents i (j :: l) = 1 + ascents j l := by
    show (if i < j then 1 else 0) + ascents j l = 1 + ascents j l
    rw [if_pos hij]
  rw [heq] at hpath
  omega

/-- Stabilization: a task all of whose predecessor paths make fewer than
`p` ascents has equal components in pass `q` and pass `q + 1`, for every
`q ≥ p`. -/
lemma fwdIter_stab {tbl : Table} {rank : Nat → Nat}
    (hrank : ∀ i < tbl.length, ∀ j ∈ resolvedPredIdxs tbl (tbl.getD i default),
      rank j < rank i) :
    ∀ (k p i : Nat), p * (tbl.length + 1) + i = k → 1 ≤ p → i < tbl.length →
      AscLt tbl i p → ∀ q, p ≤ q →
      (fwdIter tbl (q + 1)).es i = (fwdIter tbl q).es i ∧
      (fwdIter tbl (q + 1)).ef i = (fwdIter tbl q).ef i := by
  intro k
  induction k using Nat.strong_induction_on with
  | _ k IH =>
    intro p i hk hp1 hi hasc q hq
    obtain ⟨p₀, rfl⟩ : ∃ p₀, p = p₀ + 1 := ⟨p - 1, by omega⟩
    obtain ⟨q₀, rfl⟩ : ∃ q₀, q = q₀ + 1 := ⟨q - 1, by omega⟩
    obtain ⟨hes1, hef1⟩ :=
      fwdPassP_comp (s := fwdIter tbl (q₀ + 1)) hi
    obtain ⟨hes0, hef0⟩ := fwdPassP_comp (s := fwdIter tbl q₀) hi
    have hcong : fwdComputeP tbl (fwdPrefix tbl (fwdIter tbl (q₀ + 1)) i).1.ef
        (tbl.getD i default) =
        fwdComputeP tbl (fwdPrefix tbl (fwdIter tbl q₀) i).1.ef (tbl.getD i default) := by
      apply fwdComputeP_congr
      intro j hj
      have hjn : j < tbl.length := resolvedPredIdxs_lt hj
      have hne : j ≠ i := by
        intro heq
        rw [heq] at hj
        exact absurd (hrank i hi i hj) (Nat.lt_irrefl _)
      rw [fwdPrefix_ef_mix (Nat.le_of_lt hi), fwdPrefix_ef_mix (Nat.le_of_lt hi)]
      by_cases hji : j < i
      · rw [if_pos hji, if_pos hji]
        have hmeas : (p₀ + 1) * (tbl.length + 1) + j < k := by
          subst hk
          omega
        have := (IH _ hmeas (p₀ + 1) j rfl hp1 hjn (AscLt_desc hj hji hasc)
          (q₀ + 1) hq).2
        rw [fwdIter_succ] at this
        exact this
      · have hij : i < j := by omega
        rw [if_neg hji, if_neg hji]
        cases Nat.eq_zero_or_pos p₀ with
        | inl hz =>
          subst hz
          exfalso
          have := hasc [j] (PredPath.cons hj (PredPath.nil j))
          have h1 : ascents i [j] = 1 := by
            show (if i < j then 1 else 0) + 0 = 1
            rw [if_pos hij]
          omega
        | inr hpos =>
          have hmeas : p₀ * (tbl.length + 1) + j < k := by
            subst hk
            have hstep : (p₀ + 1) * (tbl.length + 1) =
                p₀ * (tbl.length + 1) + (tbl.length + 1) := by
              rw [Nat.succ_mul]
            omega
          have htrans := AscLt_asc hj hij hasc
          have hp0 : (p₀ + 1) - 1 = p₀ := rfl
          rw [hp0] at htrans
          have := (IH _ hmeas p₀ j rfl hpos hjn htrans q₀ (by omega)).2
          rw [fwdIter_succ] at this
          exact this
    constructor
    · calc (fwdIter tbl (q₀ + 1 + 1)).es i
          = (fwdComputeP tbl (fwdPrefix tbl (fwdIter tbl (q₀ + 1)) i).1.ef
              (tbl.getD i default)).1 := hes1
        _ = (fwdComputeP tbl (fwdPrefix tbl (fwdIter tbl q₀) i).1.ef
              (tbl.getD i default)).1 := by rw [hcong]
        _ = (fwdIter tbl (q₀ + 1)).es i := hes0.symm
    · calc (fwdIter tbl (q₀ + 1 + 1)).ef i
          = (fwdComputeP tbl (fwdPrefix tbl (fwdIter tbl (q₀ + 1)) i).1.ef
              (tbl.getD i default)).2 := hef1
        _ = (fwdComputeP tbl (fwdPrefix tbl (fwdIter tbl q₀) i).1.ef
              (tbl.getD i default)).2 := by rw [hcong]
        _ = (fwdIter tbl (q₀ + 1)).ef i := hef0.symm

end CPM

namespace CPM

lemma maxEFfoldP_zero {tbl : Table} {ef : Nat → Int} :
    ∀ (cs : List String) (acc : Option Int),
      (∀ c ∈ cs, ∀ j, resolveIdx tbl c = some j → ef j = 0) →
      (acc = none ∨ acc = some 0) →
      (maxEFfoldP tbl ef cs acc = none ∨ maxEFfoldP tbl ef cs acc = some 0) := by
  intro cs
  induction cs with
  | nil =>
    intro acc _ hacc
    exact hacc
  | cons c cs ih =>
    intro acc h hacc
    by_cases hce : c = ""
    · subst hce
      rw [maxEFfoldP_cons_empty]
      exact ih acc (fun c hc => h c (List.mem_cons_of_mem _ hc)) hacc
    · cases hr : resolveIdx tbl c with
      | none =>
        rw [maxEFfoldP_cons_none hce hr]
        exact ih acc (fun c hc => h c (List.mem_cons_of_mem _ hc)) hacc
      | some j =>
        have hj0 : ef j = 0 := h c (List.mem_cons_self c cs) j hr
        rcases hacc with rfl | rfl
        · rw [maxEFfoldP_cons_some hce hr,
            show (some (match (none : Option Int) with
              | none => ef j
              | some m => max m (ef j)) : Option Int) = some (ef j) from rfl, hj0]
          exact ih _ (fun c hc => h c (List.mem_cons_of_mem _ hc)) (Or.inr rfl)
        · rw [maxEFfoldP_cons_some hce hr,
            show (some (match (some (0 : Int) : Option Int) with
              | none => ef j
              | some m => max m (ef j)) : Option Int) = some (max 0 (ef j)) from rfl,
            hj0, max_self]
          exact ih _ (fun c hc => h c (List.mem_cons_of_mem _ hc)) (Or.inr rfl)

/-- When every resolved predecessor edge points at a later row, the very
first pass leaves all `ES` at `0`, so its `changed` flag is `false`. -/
lemma c8_flag_case_a {tbl : Table}
    (hasc : ∀ a < tbl.length, ∀ b ∈ resolvedPredIdxs tbl (tbl.getD a default), a < b) :
    (fwdPassP tbl (fwdIter tbl 0)).2 = false := by
  rw [fwdPassP_flag]
  intro i hi
  have hcomp := (fwdPassP_comp (s := fwdIter tbl 0) hi).1
  rw [hcomp]
  show (fwdComputeP tbl (fwdPrefix tbl (fwdIter tbl 0) i).1.ef (tbl.getD i default)).1 = 0
  cases hp : (tbl.getD i default).pre with
  | none => rw [fwdComputeP_none hp]
  | some p =>
    by_cases hpe : p = ""
    · subst hpe
      rw [fwdComputeP_empty hp]
    · rw [fwdComputeP_some hp hpe]
      have hzero : ∀ c ∈ splitPreds p, ∀ j,
          resolveIdx tbl c = some j →
          (fwdPrefix tbl (fwdIter tbl 0) i).1.ef j = 0 := by
        intro c hc j hr
        have hmem : j ∈ resolvedPredIdxs tbl (tbl.getD i default) := by
          unfold resolvedPredIdxs
          rw [List.mem_filterMap]
          refine ⟨c, ?_, hr⟩
          rw [rowPreds_some hp, if_neg hpe]
          exact hc
        have hij : i < j := hasc i hi j hmem
        rw [fwdPrefix_ef_mix (Nat.le_of_lt hi), if_neg (by omega)]
        rfl
      rcases maxEFfoldP_zero (splitPreds p) none hzero (Or.inl rfl) with hm | hm
      · rw [hm]; rfl
      · rw [hm]; rfl

end CPM

namespace CPM

lemma pairwise_of_chain {α : Type} {R : α → α → Prop}
    (tr : ∀ a b c, R a b → R b c → R a c) :
    ∀ (l : List α) (a : α), List.Chain R a l → List.Pairwise R (a :: l) := by
  intro l
  induction l with
  | nil => intro a _; exact List.pairwise_singleton R a
  | cons b l ih =>
    intro a hch
    rw [List.chain_cons] at hch
    obtain ⟨hab, hch⟩ := hch
    have hp := ih b hch
    refine List.Pairwise.cons ?_ hp
    intro x hx
    rcases List.mem_cons.mp hx with rfl | hx
    · exact hab
    · exact tr a b x hab (List.rel_of_pairwise_cons hp hx)

lemma ascents_le_length : ∀ (a : Nat) (l : List Nat), ascents a l ≤ l.length := by
  intro a l
  induction l generalizing a with
  | nil => exact Nat.le_refl 0
  | cons b l ih =>
    show (if a < b then 1 else 0) + ascents b l ≤ l.length + 1
    have := ih b
    split <;> omega

lemma ascents_eq_length_chain : ∀ (l : List Nat) (a : Nat),
    ascents a l = l.length → List.Chain (· < ·) a l := by
  intro l
  induction l with
  | nil => intro a _; exact List.Chain.nil
  | cons b l ih =>
    intro a h
    have hle := ascents_le_length b l
    have hsplit : (if a < b then 1 else 0) + ascents b l = l.length + 1 := h
    by_cases hab : a < b
    · rw [if_pos hab] at hsplit
      exact List.Chain.cons hab (ih b (by omega))
    · rw [if_neg hab] at hsplit
      omega

lemma predPath_chain_rank {tbl : Table} {rank : Nat → Nat}
    (hrank : ∀ i < tbl.length, ∀ j ∈ resolvedPredIdxs tbl (tbl.getD i default),
      rank j < rank i) :
    ∀ {i : Nat} {l : List Nat}, i < tbl.length → PredPath tbl i l →
      List.Chain (fun x y => rank y < rank x) i l := by
  intro i l hi hp
  revert hi
  induction hp with
  | nil j => intro _; exact List.Chain.nil
  | cons hmem hp ih =>
    intro hi
    exact List.Chain.cons (hrank _ hi _ hmem) (ih (resolvedPredIdxs_lt hmem))

lemma predPath_mem_lt {tbl : Table} :
    ∀ {i : Nat} {l : List Nat}, PredPath tbl i l → ∀ x ∈ l, x < tbl.length := by
  intro i l hp
  induction hp with
  | nil j => intro x hx; cases hx
  | cons hmem hp ih =>
    intro x hx
    rcases List.mem_cons.mp hx with rfl | hx
    · exact resolvedPredIdxs_lt hmem
    · exact ih x hx

lemma pairwise_lt_get_lt {c : List Nat} (hc : List.Pairwise (· < ·) c) :
    ∀ (a b : Nat) (ha : a < c.length) (hb : b < c.length), a < b →
      c.get ⟨a, ha⟩ < c.get ⟨b, hb⟩ := by
  intro a b ha hb hab
  exact List.pairwise_iff_get.mp hc ⟨a, ha⟩ ⟨b, hb⟩ (Fin.mk_lt_mk.mpr hab)

lemma get_ge_idx {c : List Nat} (hc : List.Pairwise (· < ·) c) :
    ∀ (k : Nat) (hk : k < c.length), k ≤ c.get ⟨k, hk⟩ := by
  intro k
  induction k with
  | zero => intro hk; exact Nat.zero_le _
  | succ k ih =>
    intro hk
    have hk' : k < c.length := by omega
    have h1 := ih hk'
    have h2 := pairwise_lt_get_lt hc k (k + 1) hk' hk (by omega)
    omega

lemma get_le_idx {c : List Nat} (hc : List.Pairwise (· < ·) c)
    (hbound : ∀ x ∈ c, x < c.length) :
    ∀ (m k : Nat) (hk : k < c.length), c.length - 1 - k = m → c.get ⟨k, hk⟩ ≤ k := by
  intro m
  induction m with
  | zero =>
    intro k hk hm
    have hmem : c.get ⟨k, hk⟩ ∈ c := List.get_mem c k hk
    have := hbound _ hmem
    omega
  | succ m ih =>
    intro k hk hm
    have hk1 : k + 1 < c.length := by omega
    have h1 := ih (k + 1) hk1 (by omega)
    have h2 := pairwise_lt_get_lt hc k (k + 1) hk hk1 (by omega)
    omega

/-- In a topologically ranked table with at least one predecessor edge
pointing at an earlier row, no predecessor path can make
`tbl.length - 1` ascents: that would force an all-ascending Hamiltonian
chain `0, 1, …, N-1`, under which `rank` is antitone in the row index,
contradicting the earlier-row edge. -/
lemma ascents_add_two_le {tbl : Table} {rank : Nat → Nat}
    (hrank : ∀ i < tbl.length, ∀ j ∈ resolvedPredIdxs tbl (tbl.getD i default),
      rank j < rank i)
    {a b : Nat} (ha : a < tbl.length)
    (hb : b ∈ resolvedPredIdxs tbl (tbl.getD a default)) (hba : b < a) :
    ∀ i < tbl.length, ∀ l, PredPath tbl i l → ascents i l + 2 ≤ tbl.length := by
  intro i hi l hp
  have hchainR := predPath_chain_rank hrank hi hp
  have hpwR : List.Pairwise (fun x y => rank y < rank x) (i :: l) :=
    pairwise_of_chain (R := fun x y => rank y < rank x)
      (fun x y z h1 h2 => Nat.lt_trans h2 h1) l i hchainR
  have hnd : (i :: l).Nodup := by
    refine List.Pairwise.imp ?_ hpwR
    intro x y hxy hxyeq
    rw [hxyeq] at hxy
    exact Nat.lt_irrefl _ hxy
  have hmem_lt : ∀ x ∈ i :: l, x < tbl.length := by
    intro x hx
    rcases List.mem_cons.mp hx with rfl | hx
    · exact hi
    · exact predPath_mem_lt hp x hx
  have hlen : l.length + 1 ≤ tbl.length := by
    have h1 : (i :: l).toFinset.card = (i :: l).length := List.toFinset_card_of_nodup hnd
    have h2 : (i :: l).toFinset ⊆ Finset.range tbl.length := by
      intro x hx
      rw [Finset.mem_range]
      exact hmem_lt x (List.mem_toFinset.mp hx)
    have h3 := Finset.card_le_card h2
    rw [h1, Finset.card_range] at h3
    exact h3
  by_contra hcon
  have hasc_le := ascents_le_length i l
  have hasc_eq : ascents i l = l.length := by omega
  have hchainL := ascents_eq_length_chain l i hasc_eq
  have hpwL : List.Pairwise (· < ·) (i :: l) :=
    pairwise_of_chain (R := (· < ·))
      (fun x y z h1 h2 => Nat.lt_trans h1 h2) l i hchainL
  have hclen : (i :: l).length = tbl.length := by
    show l.length + 1 = tbl.length
    omega
  have hget : ∀ (k : Nat) (hk : k < (i :: l).length), (i :: l).get ⟨k, hk⟩ = k := by
    intro k hk
    have hge := get_ge_idx hpwL k hk
    have hle := get_le_idx hpwL (fun x hx => by rw [hclen]; exact hmem_lt x hx)
      ((i :: l).length - 1 - k) k hk rfl
    omega
  have hanti : ∀ x y, x < y → y < tbl.length → rank y < rank x := by
    intro x y hxy hyN
    have hx' : x < (i :: l).length := by omega
    have hy' : y < (i :: l).length := by omega
    have hrel := List.pairwise_iff_get.mp hpwR ⟨x, hx'⟩ ⟨y, hy'⟩ (Fin.mk_lt_mk.mpr hxy)
    rw [hget x hx', hget y hy'] at hrel
    exact hrel
  have h1 : rank b < rank a := hrank a ha b hb
  have h2 : rank a < rank b := hanti b a hba ha
  omega

/-- With a descent edge present, every task's paths make at most
`N - 2` ascents, so every component is stable from pass `N - 1` on and
the pass starting from the `N - 1`-st state reports no change. -/
lemma c8_flag_case_b {tbl : Table} {rank : Nat → Nat}
    (hrank : ∀ i < tbl.length, ∀ j ∈ resolvedPredIdxs tbl (tbl.getD i default),
      rank j < rank i)
    {a b : Nat} (ha : a < tbl.length)
    (hb : b ∈ resolvedPredIdxs tbl (tbl.getD a default)) (hba : b < a) :
    (fwdPassP tbl (fwdIter tbl (tbl.length - 1))).2 = false := by
  have hN : 2 ≤ tbl.length := by
    have := resolvedPredIdxs_lt hb
    omega
  rw [fwdPassP_flag]
  intro i hi
  have hasc : AscLt tbl i (tbl.length - 1) := by
    intro l hl
    have := ascents_add_two_le hrank ha hb hba i hi l hl
    omega
  have hstab := fwdIter_stab hrank ((tbl.length - 1) * (tbl.length + 1) + i)
    (tbl.length - 1) i rfl (by omega) hi hasc (tbl.length - 1) (Nat.le_refl _)
  rw [← fwdIter_succ]
  exact hstab.1

/-- On any well-formed topologically ranked table, some pass among the
first `max N 1` reports no change. -/
lemma c8_converge_flag {tbl : Table} {rank : Nat → Nat}
    (hrank : ∀ i < tbl.length, ∀ j ∈ resolvedPredIdxs tbl (tbl.getD i default),
      rank j < rank i) :
    ∃ q < max tbl.length 1, (fwdPassP tbl (fwdIter tbl q)).2 = false := by
  by_cases hdesc : ∃ a, a < tbl.length ∧
      ∃ b ∈ resolvedPredIdxs tbl (tbl.getD a default), b < a
  · obtain ⟨a, ha, b, hb, hba⟩ := hdesc
    have hN : 2 ≤ tbl.length := by
      have := resolvedPredIdxs_lt hb
      omega
    exact ⟨tbl.length - 1, by omega, c8_flag_case_b hrank ha hb hba⟩
  · push_neg at hdesc
    refine ⟨0, by omega, c8_flag_case_a ?_⟩
    intro a ha j hj
    have hle : a ≤ j := hdesc a ha j hj
    rcases Nat.eq_or_lt_of_le hle with rfl | h
    · exact absurd (hrank a ha a hj) (Nat.lt_irrefl _)
    · exact h

end CPM

namespace CPM

/-- C8 (amended): for a well-formed table whose resolved predecessor
edges admit a topological rank (the acyclicity premise of the claim),
the forward `while changed:` loop converges within `max N 1` full passes
over the `N` tasks: given `max N 1` passes of fuel, `forwardPass`
returns a converged state whose executed pass count is at most
`max N 1`.  The claim's bound of `N` passes itself is refuted at `N = 0`
by `c8_empty_needs_one_pass`: the loop body always runs at least once. -/
theorem c8_forward_pass_bound (tbl : Table) (rank : Nat → Nat)
    (hwf : WFtable tbl)
    (hrank : ∀ i < tbl.length, ∀ j ∈ resolvedPredIdxs tbl (tbl.getD i default),
      rank j < rank i) :
    ∃ sp : FState × Nat,
      forwardPass tbl (max tbl.length 1) = .ok (some sp) ∧
      sp.2 ≤ max tbl.length 1 := by
  obtain ⟨q, hq, hflag⟩ := c8_converge_flag hrank
  obtain ⟨sp, hrun, hle⟩ := runFwd_pure_converges hwf (max tbl.length 1) 0
    ⟨q, Nat.zero_le q, by omega, hflag⟩
  exact ⟨sp, hrun, hle⟩

theorem c8_witness :
    WFtable diamond ∧
    (∀ i < diamond.length, ∀ j ∈ resolvedPredIdxs diamond (diamond.getD i default),
      id j < id i) ∧
    ∃ sp : FState × Nat,
      forwardPass diamond (max diamond.length 1) = .ok (some sp) ∧
      sp.2 ≤ max diamond.length 1 :=
  ⟨by decide, by decide, c8_forward_pass_bound diamond id (by decide) (by decide)⟩

end CPM

namespace CPM

lemma set_append_len {α : Type} : ∀ (l1 : List α) (x a : α) (l2 : List α),
    (l1 ++ x :: l2).set l1.length a = l1 ++ a :: l2 := by
  intro l1
  induction l1 with
  | nil => intro x a l2; rfl
  | cons y l1 ih =>
    intro x a l2
    show y :: (l1 ++ x :: l2).set l1.length a = y :: (l1 ++ a :: l2)
    rw [ih]

lemma getD_append_len {α : Type} : ∀ (l1 : List α) (x : α) (l2 : List α) (d : α),
    (l1 ++ x :: l2).getD l1.length d = x := by
  intro l1
  induction l1 with
  | nil => intro x l2 d; rfl
  | cons y l1 ih => intro x l2 d; exact ih x l2 d

lemma insInner_succ (v : List Int) (vi pj : Nat) (ts : List Nat) :
    insInner v vi 0 (pj + 1) ts =
      if v.getD vi 0 < v.getD (ts.getD pj 0) 0 then
        insInner v vi 0 pj (ts.set (pj + 1) (ts.getD pj 0))
      else ts.set (pj + 1) vi := by
  show (if 0 < pj + 1 ∧ v.getD vi 0 < v.getD (ts.getD pj 0) 0 then
        insInner v vi 0 pj (ts.set (pj + 1) (ts.getD pj 0))
      else ts.set (pj + 1) vi) = _
  by_cases hc : v.getD vi 0 < v.getD (ts.getD pj 0) 0
  · rw [if_pos ⟨Nat.succ_pos pj, hc⟩, if_pos hc]
  · rw [if_neg (fun hand => hc hand.2), if_neg hc]

lemma insInner_eq_rins {v : List Int} (vi : Nat) :
    ∀ (rev : List Nat) (j : Nat) (suf : List Nat),
      insInner v vi 0 rev.length (rev.reverse ++ j :: suf) = rinsAux v vi rev suf := by
  intro rev
  induction rev with
  | nil => intro j suf; rfl
  | cons e rev ih =>
    intro j suf
    have hsh : (e :: rev).reverse ++ j :: suf = rev.reverse ++ e :: j :: suf := by
      rw [List.reverse_cons, List.append_assoc]
      rfl
    have hlen : (e :: rev).length = rev.length + 1 := rfl
    rw [hsh, hlen, insInner_succ]
    have hget : (rev.reverse ++ e :: j :: suf).getD rev.length 0 = e := by
      have h := getD_append_len rev.reverse e (j :: suf) 0
      rw [List.length_reverse] at h
      exact h
    have hset : ∀ a, (rev.reverse ++ e :: j :: suf).set (rev.length + 1) a =
        rev.reverse ++ e :: a :: suf := by
      intro a
      have h2 : rev.reverse ++ e :: j :: suf = (rev.reverse ++ [e]) ++ j :: suf := by
        rw [List.append_assoc]
        rfl
      have h3 : (rev.reverse ++ [e]).length = rev.length + 1 := by
        rw [List.length_append, List.length_reverse]
        rfl
      rw [h2, ← h3, set_append_len, List.append_assoc]
      rfl
    rw [hget]
    by_cases hc : v.getD vi 0 < v.getD e 0
    · rw [if_pos hc, hset, ih e (e :: suf),
        show rinsAux v vi (e :: rev) suf =
          (if v.getD vi 0 < v.getD e 0 then rinsAux v vi rev (e :: suf)
           else rev.reverse ++ e :: vi :: suf) from rfl,
        if_pos hc]
    · rw [if_neg hc, hset,
        show rinsAux v vi (e :: rev) suf =
          (if v.getD vi 0 < v.getD e 0 then rinsAux v vi rev (e :: suf)
           else rev.reverse ++ e :: vi :: suf) from rfl,
        if_neg hc]

lemma sinsert_perm (v : List Int) (vi : Nat) :
    ∀ (l : List Nat), (sinsert v vi l).Perm (vi :: l) := by
  intro l
  induction l with
  | nil => exact List.Perm.refl _
  | cons x xs ih =>
    show (if v.getD vi 0 < v.getD x 0 then vi :: x :: xs
      else x :: sinsert v vi xs).Perm _
    by_cases hc : v.getD vi 0 < v.getD x 0
    · rw [if_pos hc]
    · rw [if_neg hc]
      exact (ih.cons x).trans (List.Perm.swap vi x xs)

lemma sinsert_append_gt {v : List Int} {vi e : Nat}
    (hc : v.getD vi 0 < v.getD e 0) :
    ∀ (l : List Nat), sinsert v vi (l ++ [e]) = sinsert v vi l ++ [e] := by
  intro l
  induction l with
  | nil =>
    show (if v.getD vi 0 < v.getD e 0 then vi :: e :: [] else e :: sinsert v vi []) =
      [vi] ++ [e]
    rw [if_pos hc]
    rfl
  | cons x xs ih =>
    show (if v.getD vi 0 < v.getD x 0 then vi :: x :: (xs ++ [e])
        else x :: sinsert v vi (xs ++ [e])) =
      (if v.getD vi 0 < v.getD x 0 then vi :: x :: xs else x :: sinsert v vi xs) ++ [e]
    by_cases hx : v.getD vi 0 < v.getD x 0
    · rw [if_pos hx, if_pos hx]
      rfl
    · rw [if_neg hx, if_neg hx, ih]
      rfl

lemma sinsert_all_le {v : List Int} {vi : Nat} :
    ∀ (l : List Nat), (∀ x ∈ l, ¬ v.getD vi 0 < v.getD x 0) →
      sinsert v vi l = l ++ [vi] := by
  intro l
  induction l with
  | nil => intro _; rfl
  | cons x xs ih =>
    intro h
    show (if v.getD vi 0 < v.getD x 0 then vi :: x :: xs else x :: sinsert v vi xs) =
      (x :: xs) ++ [vi]
    rw [if_neg (h x (List.mem_cons_self x xs)),
      ih (fun y hy => h y (List.mem_cons_of_mem x hy))]
    rfl

lemma rins_eq_sinsert {v : List Int} (vi : Nat) :
    ∀ (rev suf : List Nat),
      List.Pairwise (fun a b => v.getD a 0 ≤ v.getD b 0) rev.reverse →
      rinsAux v vi rev suf = sinsert v vi rev.reverse ++ suf := by
  intro rev
  induction rev with
  | nil => intro suf _; rfl
  | cons e rev ih =>
    intro suf hsort
    rw [List.reverse_cons] at hsort
    show (if v.getD vi 0 < v.getD e 0 then rinsAux v vi rev (e :: suf)
        else rev.reverse ++ e :: vi :: suf) =
      sinsert v vi (e :: rev).reverse ++ suf
    rw [List.reverse_cons]
    by_cases hc : v.getD vi 0 < v.getD e 0
    · rw [if_pos hc,
        ih (e :: suf) (List.Pairwise.sublist (List.sublist_append_left _ _) hsort),
        sinsert_append_gt hc, List.append_assoc]
      rfl
    · rw [if_neg hc]
      have hall : ∀ x ∈ rev.reverse ++ [e], ¬ v.getD vi 0 < v.getD x 0 := by
        intro x hx
        rcases List.mem_append.mp hx with hx | hx
        · have hxe : v.getD x 0 ≤ v.getD e 0 :=
            (List.pairwise_append.mp hsort).2.2 x hx e (List.mem_singleton_self e)
          intro hlt
          omega
        · rw [List.mem_singleton.mp hx]
          exact hc
      rw [sinsert_all_le _ hall, List.append_assoc, List.append_assoc]
      rfl

lemma sinsert_sorted {v : List Int} {vi : Nat} :
    ∀ (l : List Nat),
      List.Pairwise (fun a b => v.getD a 0 < v.getD b 0 ∨
        (v.getD a 0 = v.getD b 0 ∧ a ≤ b)) l →
      (∀ x ∈ l, x < vi) →
      List.Pairwise (fun a b => v.getD a 0 < v.getD b 0 ∨
        (v.getD a 0 = v.getD b 0 ∧ a ≤ b)) (sinsert v vi l) := by
  intro l
  induction l with
  | nil => intro _ _; exact List.pairwise_singleton _ _
  | cons x xs ih =>
    intro hp hlt
    obtain ⟨hx, hxs⟩ := List.pairwise_cons.mp hp
    show List.Pairwise _ (if v.getD vi 0 < v.getD x 0 then vi :: x :: xs
      else x :: sinsert v vi xs)
    by_cases hc : v.getD vi 0 < v.getD x 0
    · rw [if_pos hc]
      refine List.Pairwise.cons ?_ hp
      intro y hy
      rcases List.mem_cons.mp hy with rfl | hy
      · exact Or.inl hc
      · rcases hx y hy with h | h
        · exact Or.inl (by omega)
        · exact Or.inl (by omega)
    · rw [if_neg hc]
      refine List.Pairwise.cons ?_
        (ih hxs (fun y hy => hlt y (List.mem_cons_of_mem x hy)))
      intro y hy
      have hmem : y ∈ vi :: xs := (sinsert_perm v vi xs).mem_iff.mp hy
      rcases List.mem_cons.mp hmem with rfl | hy'
      · rcases Int.lt_or_le (v.getD x 0) (v.getD y 0) with h | h
        · exact Or.inl h
        · exact Or.inr ⟨by omega, Nat.le_of_lt (hlt x (List.mem_cons_self x xs))⟩
      · exact hx y hy'

lemma pairwise_key_of_lex {v : List Int} {l : List Nat}
    (h : List.Pairwise (fun a b => v.getD a 0 < v.getD b 0 ∨
      (v.getD a 0 = v.getD b 0 ∧ a ≤ b)) l) :
    List.Pairwise (fun a b => v.getD a 0 ≤ v.getD b 0) l := by
  refine List.Pairwise.imp ?_ h
  intro a b hab
  rcases hab with h | h
  · omega
  · omega

end CPM

namespace CPM

lemma map_getD_range {α : Type} : ∀ (l : List α) (d : α),
    (List.range l.length).map (fun k => l.getD k d) = l := by
  intro l d
  apply List.ext_getElem
  · rw [List.length_map, List.length_range]
  · intro i h1 h2
    rw [List.getElem_map, List.getElem_range, List.getD_eq_getElem?_getD,
      List.getElem?_eq_getElem h2]
    rfl

lemma getD_map_lt {α β : Type} (g : α → β) (l : List α) (dA : α) (dB : β)
    {a : Nat} (ha : a < l.length) :
    (l.map g).getD a dB = g (l.getD a dA) := by
  rw [List.getD_eq_getElem?_getD, List.getD_eq_getElem?_getD, List.getElem?_map,
    List.getElem?_eq_getElem ha]
  rfl

lemma getD_eq_get {α : Type} (l : List α) (d : α) {a : Nat} (ha : a < l.length) :
    l.getD a d = l.get ⟨a, ha⟩ := by
  rw [List.getD_eq_getElem?_getD, List.getElem?_eq_getElem ha]
  rfl

lemma insSort_zero (v : List Int) (m : Nat) (ts : List Nat) :
    insSort v 0 m ts =
      (List.range' (0 + 1) m).foldl
        (fun ts pi => insInner v (ts.getD pi 0) 0 pi ts) ts := by
  unfold insSort
  rw [Nat.sub_zero]

lemma insSort_fold_spec {v : List Int} :
    ∀ (d k : Nat) (S : List Nat),
      S.Perm (List.range (k + 1)) →
      List.Pairwise (fun a b => v.getD a 0 < v.getD b 0 ∨
        (v.getD a 0 = v.getD b 0 ∧ a ≤ b)) S →
      ((List.range' (k + 1) d).foldl
          (fun ts pi => insInner v (ts.getD pi 0) 0 pi ts)
          (S ++ List.range' (k + 1) d)).Perm (List.range (k + 1 + d)) ∧
      List.Pairwise (fun a b => v.getD a 0 < v.getD b 0 ∨
        (v.getD a 0 = v.getD b 0 ∧ a ≤ b))
        ((List.range' (k + 1) d).foldl
          (fun ts pi => insInner v (ts.getD pi 0) 0 pi ts)
          (S ++ List.range' (k + 1) d)) := by
  intro d
  induction d with
  | zero =>
    intro k S hperm hsort
    constructor
    · show (S ++ []).Perm (List.range (k + 1 + 0))
      rw [List.append_nil]
      exact hperm
    · show List.Pairwise _ (S ++ [])
      rw [List.append_nil]
      exact hsort
  | succ d ih =>
    intro k S hperm hsort
    have hSlen : S.length = k + 1 := by
      rw [hperm.length_eq, List.length_range]
    have hr : List.range' (k + 1) (d + 1) = (k + 1) :: List.range' (k + 1 + 1) d :=
      List.range'_succ (k + 1) d 1
    have hget : (S ++ (k + 1) :: List.range' (k + 1 + 1) d).getD (k + 1) 0 = k + 1 := by
      have h := getD_append_len S (k + 1) (List.range' (k + 1 + 1) d) 0
      rw [hSlen] at h
      exact h
    have hs1 : S.reverse.length = k + 1 := by
      rw [List.length_reverse, hSlen]
    have hs2 : S.reverse.reverse = S := List.reverse_reverse S
    have hins : insInner v (k + 1) 0 (k + 1)
        (S ++ (k + 1) :: List.range' (k + 1 + 1) d) =
        rinsAux v (k + 1) S.reverse (List.range' (k + 1 + 1) d) := by
      have h := insInner_eq_rins (v := v) (k + 1) S.reverse (k + 1) (List.range' (k + 1 + 1) d)
      rw [hs1, hs2] at h
      exact h
    have hrins : rinsAux v (k + 1) S.reverse (List.range' (k + 1 + 1) d) =
        sinsert v (k + 1) S ++ List.range' (k + 1 + 1) d := by
      have h := rins_eq_sinsert (k + 1) S.reverse (List.range' (k + 1 + 1) d)
        (by rw [hs2]; exact pairwise_key_of_lex hsort)
      rw [hs2] at h
      exact h
    have hperm' : (sinsert v (k + 1) S).Perm (List.range (k + 1 + 1)) := by
      refine (sinsert_perm v (k + 1) S).trans ?_
      refine (hperm.cons (k + 1)).trans ?_
      have hrs := List.range_succ (k + 1)
      rw [Nat.succ_eq_add_one] at hrs
      rw [hrs]
      exact (List.perm_append_singleton _ _).symm
    have hsort' : List.Pairwise (fun a b => v.getD a 0 < v.getD b 0 ∨
        (v.getD a 0 = v.getD b 0 ∧ a ≤ b)) (sinsert v (k + 1) S) := by
      refine sinsert_sorted S hsort ?_
      intro x hx
      have := List.mem_range.mp (hperm.mem_iff.mp hx)
      omega
    obtain ⟨hP, hS⟩ := ih (k + 1) (sinsert v (k + 1) S) hperm' hsort'
    have heq : k + 1 + 1 + d = k + 1 + (d + 1) := by omega
    rw [heq] at hP
    rw [hr, List.foldl_cons, hget, hins, hrins]
    exact ⟨hP, hS⟩

lemma npyAargsort_small {v : List Int} (h : v.length ≤ 16) :
    npyAargsort v = insSort v 0 (v.length - 1) (List.range v.length) := by
  have hpart : aqsPart v (2 * v.length + 1 + 1) 0 (v.length - 1)
      (2 * Int.ofNat (npyGetMsb v.length)) [] (List.range v.length) =
      (List.range v.length, 0, v.length - 1,
        2 * Int.ofNat (npyGetMsb v.length), []) := by
    simp only [aqsPart]
    rw [if_neg (by omega)]
  show aqsOuter v (2 * v.length + 1 + 1) 0 (v.length - 1)
      (2 * Int.ofNat (npyGetMsb v.length)) [] (List.range v.length) = _
  simp only [aqsOuter]
  rw [if_neg (by
    have h0 : (0 : Int) ≤ Int.ofNat (npyGetMsb v.length) := Int.ofNat_nonneg _
    omega)]
  rw [hpart]

end CPM

namespace CPM

/-- C3 (amended): when at most 16 rows have zero slack — so pandas'
default `kind='quicksort'` argsort stays in numpy's insertion-sort
branch (`pr - pl ≤ SMALL_QUICKSORT`), which is stable — the row order
produced by `critical_path_string`'s `sort_values(by='ES')` consists of
exactly the zero-slack rows, sorted by ascending `ES` with ties in
original input order.  For more than 16 zero-slack rows the claim fails:
see the tie-order counterexample on 17 equal-`ES` tasks. -/
theorem c3_stable_sort_small (r : CPMResult)
    (h : (zeroSlackIdxs r).length ≤ 16) :
    (criticalOrder r).Perm (zeroSlackIdxs r) ∧
    List.Pairwise (fun a b => r.es.getD a 0 < r.es.getD b 0 ∨
      (r.es.getD a 0 = r.es.getD b 0 ∧ a ≤ b)) (criticalOrder r) := by
  set idxs := zeroSlackIdxs r with hidxs
  set v := idxs.map (fun i => r.es.getD i 0) with hv
  have hco : criticalOrder r = (npyAargsort v).map (fun k => idxs.getD k 0) := rfl
  have hvlen : v.length = idxs.length := by rw [hv, List.length_map]
  have hkey : ∀ a < idxs.length, v.getD a 0 = r.es.getD (idxs.getD a 0) 0 := by
    intro a ha
    rw [hv]
    exact getD_map_lt (fun i => r.es.getD i 0) idxs 0 0 ha
  have hmono : List.Pairwise (· < ·) idxs := by
    rw [hidxs]
    unfold zeroSlackIdxs
    exact List.Pairwise.sublist (List.filter_sublist _) (List.pairwise_lt_range _)
  have hidx_le : ∀ {a b : Nat}, a < idxs.length → b < idxs.length → a ≤ b →
      idxs.getD a 0 ≤ idxs.getD b 0 := by
    intro a b ha hb hab
    rcases Nat.eq_or_lt_of_le hab with rfl | hlt
    · exact Nat.le_refl _
    · rw [getD_eq_get idxs 0 ha, getD_eq_get idxs 0 hb]
      exact Nat.le_of_lt (pairwise_lt_get_lt hmono a b ha hb hlt)
  rcases Nat.eq_zero_or_pos idxs.length with hn | hpos
  · have hidxe : idxs = [] := List.length_eq_zero.mp hn
    have hve : v = [] := by rw [hv, hidxe]; rfl
    have hres : criticalOrder r = [] := by rw [hco, hve]; rfl
    rw [hres, hidxe]
    exact ⟨List.Perm.nil, List.Pairwise.nil⟩
  · obtain ⟨n, hn⟩ : ∃ n, idxs.length = n + 1 := ⟨idxs.length - 1, by omega⟩
    have hsmall : v.length ≤ 16 := by omega
    have hT := npyAargsort_small hsmall
    rw [hvlen, hn] at hT
    have hsub : n + 1 - 1 = n := rfl
    rw [hsub, insSort_zero] at hT
    have hinit : List.range (n + 1) = [0] ++ List.range' (0 + 1) n := by
      rw [List.range_eq_range']
      have h0 := List.range'_succ 0 n 1
      rw [h0]
      rfl
    rw [hinit] at hT
    obtain ⟨hP, hS⟩ := insSort_fold_spec n 0 [0]
      (by
        have h1 : List.range (0 + 1) = [0] := by decide
        rw [h1])
      (List.pairwise_singleton _ _)
    rw [← hT] at hP hS
    have h01 : 0 + 1 + n = n + 1 := by omega
    rw [h01] at hP
    rw [hco]
    constructor
    · refine (hP.map (fun k => idxs.getD k 0)).trans ?_
      rw [← hn, map_getD_range]
    · rw [List.pairwise_map]
      refine List.Pairwise.imp_of_mem ?_ hS
      intro a b hma hmb hab
      have haT : a < idxs.length := by
        have := List.mem_range.mp (hP.mem_iff.mp hma)
        omega
      have hbT : b < idxs.length := by
        have := List.mem_range.mp (hP.mem_iff.mp hmb)
        omega
      rcases hab with hlt | ⟨heq, hle⟩
      · left
        rw [← hkey a haT, ← hkey b hbT]
        exact hlt
      · right
        constructor
        · rw [← hkey a haT, ← hkey b hbT]
          exact heq
        · exact hidx_le haT hbT hle

theorem c3_witness :
    (zeroSlackIdxs diamondResult).length ≤ 16 ∧
    ((criticalOrder diamondResult).Perm (zeroSlackIdxs diamondResult) ∧
     List.Pairwise (fun a b =>
         diamondResult.es.getD a 0 < diamondResult.es.getD b 0 ∨
         (diamondResult.es.getD a 0 = diamondResult.es.getD b 0 ∧ a ≤ b))
       (criticalOrder diamondResult)) :=
  ⟨by decide, c3_stable_sort_small diamondResult (by decide)⟩

end CPM
